import Mathlib

/-!
# pbind: binding `sql.Rows` columns to protocol buffer message fields

A shallow embedding of `bind.go` (package `pbind`): the `field` adapter with its
`Scan` method (the `sql.Scanner` implementation) and the package level `Scan`.

Modelling choices.

* Go values of the carrier types are modelled directly: `bool` as `Bool`, `int64`
  as `Int`, `string` as `String`, `float64` and `float32` as their IEEE 754 bit
  patterns (`Nat`), and `[]byte` as a slice header (`Bytes`) pointing into a heap
  of byte buffers, so that copying and aliasing can be told apart.
* The mutable state (`World`) holds the heap of byte buffers, the messages
  reachable through `protoreflect.Message` references, and a counter of the
  calls of `(*sql.Rows).Scan`.
* A Go call either returns `nil`, returns an error, or panics (`Outcome`); the
  state reached is returned next to the outcome in all three cases.
* `database/sql` and `protoreflect` are not part of the repository; the few
  operations `bind.go` calls are modelled from their interface.
* The specification speaks of a field "of kind K" for a singular field: a
  repeated field is for it a kind of its own. In `protoreflect` a repeated field
  has the kind of its elements and the cardinality `Repeated`; the theorems about
  a field of a scalar kind say where they need the field to be singular.
-/

namespace pbind

/-! ## Integer and floating point conversions of the Go language -/

/-- Go conversion `int32(d)` of an `int64`: keep the low 32 bits and read them as
a two's complement number. -/
def int32OfInt64 (d : Int) : Int :=
  let u := d % 2 ^ 32
  if u < 2 ^ 31 then u else u - 2 ^ 32

/-- Go conversion `uint32(d)` of an `int64`: keep the low 32 bits. -/
def uint32OfInt64 (d : Int) : Nat :=
  (d % 2 ^ 32).toNat

/-- Go conversion `uint64(d)` of an `int64`: the same 64 bits read as unsigned. -/
def uint64OfInt64 (d : Int) : Nat :=
  (d % 2 ^ 64).toNat

/-- Division of `n` by `2 ^ sh`, rounded to nearest, ties to even. -/
def roundShift (n sh : Nat) : Nat :=
  let q := n / 2 ^ sh
  let r := n % 2 ^ sh
  if 2 ^ sh < 2 * r ∨ (2 ^ sh = 2 * r ∧ q % 2 = 1) then q + 1 else q

/-- Go conversion `float32(d)` of a `float64`, on IEEE 754 bit patterns: round to
the nearest single precision number, ties to even; overflow gives an infinity, a
NaN stays a (quiet) NaN that keeps the high bits of its payload. -/
def float32OfFloat64 (b : Nat) : Nat :=
  let s := b / 2 ^ 63 % 2
  let e := b / 2 ^ 52 % 2 ^ 11
  let m := b % 2 ^ 52
  if e = 2047 then
    if m = 0 then s * 2 ^ 31 + 0x7f800000
    else s * 2 ^ 31 + 0x7fc00000 + m / 2 ^ 29 % 2 ^ 22
  else
    -- the magnitude is `sig * 2 ^ (ee - 1075)`
    let sig := if e = 0 then m else m + 2 ^ 52
    let ee := if e = 0 then 1 else e
    -- biased single precision exponent of the result before rounding (at least 1)
    let e32 := max (ee - 896) 1
    let n := roundShift sig (925 + e32 - ee)
    let r := (e32 - 1) * 2 ^ 23 + n
    s * 2 ^ 31 + (if r < 0x7f800000 then r else 0x7f800000)

/-- The exact widening of a `float32` bit pattern to the `float64` bit pattern of
the same number (Go conversion `float64(x)`); a NaN becomes a quiet NaN. -/
def float64OfFloat32 (b : Nat) : Nat :=
  let s := b / 2 ^ 31 % 2
  let e := b / 2 ^ 23 % 2 ^ 8
  let m := b % 2 ^ 23
  if e = 255 then
    if m = 0 then s * 2 ^ 63 + 0x7ff0000000000000
    else s * 2 ^ 63 + 0x7ff8000000000000 + m % 2 ^ 22 * 2 ^ 29
  else if e = 0 then
    if m = 0 then s * 2 ^ 63
    else
      -- subnormal: `m * 2 ^ (-149)` with leading bit at position `k`
      let k := Nat.log2 m
      s * 2 ^ 63 + (k + 874) * 2 ^ 52 + (m - 2 ^ k) * 2 ^ (52 - k)
  else s * 2 ^ 63 + (e + 896) * 2 ^ 52 + m * 2 ^ 29

/-! ## Schema: kinds and field descriptors (package `protoreflect`) -/

/-- The field kinds of `protoreflect.Kind`. -/
inductive Kind
  | BoolKind | EnumKind | Int32Kind | Sint32Kind | Uint32Kind | Int64Kind
  | Sint64Kind | Uint64Kind | Sfixed32Kind | Fixed32Kind | FloatKind
  | Sfixed64Kind | Fixed64Kind | DoubleKind | StringKind | BytesKind
  | MessageKind | GroupKind
  deriving DecidableEq, Repr

/-- The cardinalities of `protoreflect.Cardinality`. A repeated field (a list or a
map) reports the kind of its elements as its `Kind`. -/
inductive Cardinality
  | Optional | Required | Repeated
  deriving DecidableEq, Repr

/-- A `protoreflect.FieldDescriptor`, reduced to what `bind.go` and
`Message.Set` consult: the field name, its kind and its cardinality. -/
structure FieldDescriptor where
  Name : String
  Kind : Kind
  Cardinality : Cardinality
  deriving DecidableEq, Repr

/-- Modelled from the spec: `FieldDescriptors.ByName` of protoreflect (not part of
the repository), "given a field-descriptor set and a name, return the matching
descriptor or an absent-result marker"; `none` stands for the nil descriptor. -/
def ByName (fields : List FieldDescriptor) (name : String) : Option FieldDescriptor :=
  fields.find? (fun fd => fd.Name == name)

/-! ## Values -/

/-- A Go `[]byte` slice header: the address of the backing buffer in the heap and
the length. The nil slice is `Bytes.nil`. -/
structure Bytes where
  ptr : Nat
  len : Nat
  deriving DecidableEq, Repr

/-- The nil `[]byte` (the zero value a failed type assertion yields). -/
def Bytes.nil : Bytes := ⟨0, 0⟩

/-- The dynamic type of a raw value, as the `%T` verb prints it: nil, the six
types of a `driver.Value`, or any other type, given by its name. -/
inductive GoType
  | nil | bool | int64 | float64 | string | bytes | time
  | other (name : String)
  deriving DecidableEq, Repr

/-- A raw column value: the `interface{}` handed to `field.Scan`. It holds nil or
a value of one of the `driver.Value` types; `other` stands for a value of any
other Go type, of which only the type name matters here. An `int64` is an integer
`d` with `-2^63 ≤ d < 2^63` (the conversions are defined for every integer, and a
theorem that needs the range states it), `float64` carries the IEEE 754 bit
pattern, `time` the nanoseconds of a `time.Time`. -/
inductive Raw
  | null
  | bool (b : Bool)
  | int64 (d : Int)
  | float64 (bits : Nat)
  | string (s : String)
  | bytes (s : Bytes)
  | time (t : Int)
  | other (typeName : String)
  deriving DecidableEq, Repr

/-- The dynamic type of a raw value (`%T`). -/
def Raw.goType : Raw → GoType
  | .null => .nil
  | .bool _ => .bool
  | .int64 _ => .int64
  | .float64 _ => .float64
  | .string _ => .string
  | .bytes _ => .bytes
  | .time _ => .time
  | .other name => .other name

/-- The type assertion `d, ok = src.(bool)`. -/
def Raw.assertBool : Raw → Bool × Bool
  | .bool d => (d, true)
  | _ => (false, false)

/-- The type assertion `d, ok = src.(int64)`. -/
def Raw.assertInt64 : Raw → Int × Bool
  | .int64 d => (d, true)
  | _ => (0, false)

/-- The type assertion `d, ok = src.(float64)`; the zero value is `+0`. -/
def Raw.assertFloat64 : Raw → Nat × Bool
  | .float64 d => (d, true)
  | _ => (0, false)

/-- The type assertion `d, ok = src.(string)`. -/
def Raw.assertString : Raw → String × Bool
  | .string d => (d, true)
  | _ => ("", false)

/-- The type assertion `s, ok = src.([]byte)`. -/
def Raw.assertBytes : Raw → Bytes × Bool
  | .bytes s => (s, true)
  | _ => (Bytes.nil, false)

/-- A `protoreflect.Value`, named after its constructors. A bytes value keeps the
slice it was built from. `field.Scan` builds the first nine sorts of value; an
enum number and references to a message, a list or a map are what the fields of
the other kinds and the repeated fields of a message hold. -/
inductive Value
  | ValueOfBool (v : Bool)
  | ValueOfInt32 (v : Int)
  | ValueOfUint32 (v : Nat)
  | ValueOfInt64 (v : Int)
  | ValueOfUint64 (v : Nat)
  | ValueOfFloat32 (bits : Nat)
  | ValueOfFloat64 (bits : Nat)
  | ValueOfString (v : String)
  | ValueOfBytes (v : Bytes)
  | ValueOfEnum (n : Int)
  | ValueOfMessage (ref : Nat)
  | ValueOfList (ref : Nat)
  | ValueOfMap (ref : Nat)
  deriving DecidableEq, Repr

/-- Whether a value has the Go type that a singular field of the given kind
stores. -/
def Kind.accepts : Kind → Value → Bool
  | .BoolKind, .ValueOfBool _ => true
  | .Int32Kind, .ValueOfInt32 _ => true
  | .Sint32Kind, .ValueOfInt32 _ => true
  | .Sfixed32Kind, .ValueOfInt32 _ => true
  | .Uint32Kind, .ValueOfUint32 _ => true
  | .Fixed32Kind, .ValueOfUint32 _ => true
  | .Int64Kind, .ValueOfInt64 _ => true
  | .Sint64Kind, .ValueOfInt64 _ => true
  | .Sfixed64Kind, .ValueOfInt64 _ => true
  | .Uint64Kind, .ValueOfUint64 _ => true
  | .Fixed64Kind, .ValueOfUint64 _ => true
  | .FloatKind, .ValueOfFloat32 _ => true
  | .DoubleKind, .ValueOfFloat64 _ => true
  | .StringKind, .ValueOfString _ => true
  | .BytesKind, .ValueOfBytes _ => true
  | .EnumKind, .ValueOfEnum _ => true
  | .MessageKind, .ValueOfMessage _ => true
  | .GroupKind, .ValueOfMessage _ => true
  | _, _ => false

/-! ## Errors and outcomes -/

/-- The errors that occur, kept structured instead of formatted. -/
inductive Error
  /-- An error made by the driver or by `database/sql` (`errors.New(msg)`). -/
  | upstream (msg : String)
  /-- `fmt.Errorf("unsupported type %q for scanning", kind)`. -/
  | unsupportedType (kind : Kind)
  /-- `fmt.Errorf("cannot scan %T into %s", src, kind)`. -/
  | cannotScan (srcType : GoType) (kind : Kind)
  /-- `fmt.Errorf("pbbind Bind: %q field not in Message", col)`. -/
  | fieldNotInMessage (col : String)
  /-- `fmt.Errorf(pfx + ": %w", err)`. -/
  | wrap (pfx : String) (err : Error)
  /-- The error of `database/sql` for a failed destination:
  `sql: Scan error on column index %d, name %q: %w`. -/
  | scanColumn (index : Nat) (name : String) (err : Error)
  /-- The error of `database/sql` for a wrong number of destinations:
  `sql: expected %d destination arguments in Scan, not %d`. -/
  | destinations (expected got : Nat)
  deriving DecidableEq, Repr

/-- The error wrapped with `%w`, as `errors.Unwrap` returns it. -/
def Error.Unwrap : Error → Option Error
  | .wrap _ err => some err
  | .scanColumn _ _ err => some err
  | _ => none

/-- Why `Message.Set` panics. -/
inductive Panic
  /-- A scalar value was set on a repeated (list or map) field. -/
  | scalarIntoRepeated (name : String)
  /-- The value does not have the type of the field. -/
  | typeMismatch (name : String)
  deriving DecidableEq, Repr

/-- How a call returning `error` ends: it returns nil, returns an error, or
panics. -/
inductive Outcome
  | ok
  | error (err : Error)
  | panic (p : Panic)
  deriving DecidableEq, Repr

/-! ## State: messages and the heap of byte buffers -/

/-- A message as seen through `protoreflect.Message`: the field descriptors of
its message descriptor and the value stored for each field name (`none` for a
field that is not populated). -/
structure Message where
  Fields : List FieldDescriptor
  value : String → Option Value

/-- Whether the value is a list or a map, the values a repeated field takes. -/
def Value.isComposite : Value → Bool
  | .ValueOfList _ => true
  | .ValueOfMap _ => true
  | _ => false

/-- Modelled from the spec: `Message.Set` of protoreflect (not part of the
repository), "given a target object and a field descriptor plus a typed value,
write the value into that field". Only that field changes (the fields of a
message are taken to be independent of each other). As in the protobuf runtime,
the call panics when a value that is not a list or a map is given for a repeated
field, or when the type of the value is not the one of the kind of a singular
field. -/
def Message.Set (m : Message) (desc : FieldDescriptor) (v : Value) : Except Panic Message :=
  if desc.Cardinality = Cardinality.Repeated then
    if v.isComposite then
      .ok ⟨m.Fields, fun name => if name = desc.Name then some v else m.value name⟩
    else
      .error (.scalarIntoRepeated desc.Name)
  else if desc.Kind.accepts v then
    .ok ⟨m.Fields, fun name => if name = desc.Name then some v else m.value name⟩
  else
    .error (.typeMismatch desc.Name)

/-- The program state: the heap of byte buffers (a buffer address is an index
into `heap`), the messages by reference, and the number of calls of
`(*sql.Rows).Scan` made so far (a ghost counter). -/
structure World where
  heap : List (List Nat)
  msgs : Nat → Message
  scans : Nat

/-- The bytes a slice denotes in the current heap. -/
def World.bytesOf (w : World) (s : Bytes) : List Nat :=
  (w.heap.getD s.ptr []).take s.len

/-- Go `make([]byte, n)`: a new zeroed buffer at a fresh address. -/
def World.make (w : World) (n : Nat) : Bytes × World :=
  (⟨w.heap.length, n⟩, ⟨w.heap ++ [List.replicate n 0], w.msgs, w.scans⟩)

/-- Go `copy(d, s)`: overwrite the first `min (len d) (len s)` bytes of `d` with
those of `s`. -/
def World.copy (w : World) (d s : Bytes) : World :=
  let n := min d.len s.len
  ⟨w.heap.set d.ptr ((w.bytesOf s).take n ++ (w.heap.getD d.ptr []).drop n), w.msgs, w.scans⟩

/-- The assignment `s[i] = b` on a byte slice. -/
def World.setByte (w : World) (s : Bytes) (i b : Nat) : World :=
  ⟨w.heap.set s.ptr ((w.heap.getD s.ptr []).set i b), w.msgs, w.scans⟩

/-- Replace the message behind a reference. -/
def World.setMsg (w : World) (ref : Nat) (m : Message) : World :=
  ⟨w.heap, fun r => if r = ref then m else w.msgs r, w.scans⟩

/-- The value of the named field of the message behind `ref`. -/
def World.fieldValue (w : World) (ref : Nat) (name : String) : Option Value :=
  (w.msgs ref).value name

/-- The contents of a bytes field: the bytes that the stored slice denotes in the
current heap. -/
def World.fieldBytes (w : World) (ref : Nat) (name : String) : Option (List Nat) :=
  match w.fieldValue ref name with
  | some (.ValueOfBytes v) => some (w.bytesOf v)
  | _ => none

/-! ## `bind.go`: the field adapter -/

/-- The Go struct `field`: a reference to a `protoreflect.Message` and a
`FieldDescriptor` of that message. -/
structure field where
  msg : Nat
  desc : FieldDescriptor
  deriving DecidableEq, Repr

/-- The tail of `field.Scan` after the `switch` (lines 102 to 108): report a type
mismatch when the assertion failed, else `f.msg.Set(f.desc, v)` and return nil. -/
def field.store (f : field) (src : Raw) (kind : Kind) (v : Value) (ok : Bool)
    (w : World) : Outcome × World :=
  if !ok then
    (.error (.cannotScan src.goType kind), w)
  else
    match (w.msgs f.msg).Set f.desc v with
    | .error p => (.panic p, w)
    | .ok m => (.ok, w.setMsg f.msg m)

/-- The method `func (f *field) Scan(src interface{}) error`. -/
def field.Scan (f : field) (src : Raw) (w : World) : Outcome × World :=
  let kind := f.desc.Kind
  match kind with
  | .BoolKind =>
    let (d, ok) := src.assertBool
    f.store src kind (.ValueOfBool d) ok w
  | .Int32Kind | .Sint32Kind | .Sfixed32Kind =>
    let (d, ok) := src.assertInt64
    f.store src kind (.ValueOfInt32 (int32OfInt64 d)) ok w
  | .Uint32Kind | .Fixed32Kind =>
    let (d, ok) := src.assertInt64
    f.store src kind (.ValueOfUint32 (uint32OfInt64 d)) ok w
  | .Int64Kind | .Sint64Kind | .Sfixed64Kind =>
    let (d, ok) := src.assertInt64
    f.store src kind (.ValueOfInt64 d) ok w
  | .Uint64Kind | .Fixed64Kind =>
    let (d, ok) := src.assertInt64
    f.store src kind (.ValueOfUint64 (uint64OfInt64 d)) ok w
  | .FloatKind =>
    let (d, ok) := src.assertFloat64
    f.store src kind (.ValueOfFloat32 (float32OfFloat64 d)) ok w
  | .DoubleKind =>
    let (d, ok) := src.assertFloat64
    f.store src kind (.ValueOfFloat64 d) ok w
  | .StringKind =>
    let (d, ok) := src.assertString
    f.store src kind (.ValueOfString d) ok w
  | .BytesKind =>
    let (s, ok) := src.assertBytes
    let (d, w1) := w.make s.len
    let w2 := w1.copy d s
    f.store src kind (.ValueOfBytes s) ok w2
  | _ => (.error (.unsupportedType kind), w)

/-! ## The row iteration engine (`database/sql`) -/

/-- A `*sql.Rows` positioned on a row, reduced to what `Scan` observes:
`columnsErr` is the error `Columns()` returns, if any (rows closed);
`scanErr` is the error `Scan` reports before it extracts any value, if any (a row
error, rows closed, `Next` not called); `row` is the active row, the column name
and the driver value of every column, in column order. -/
structure Rows where
  columnsErr : Option Error
  scanErr : Option Error
  row : List (String × Raw)

/-- Modelled from the spec: `(*sql.Rows).Columns` (not part of the repository),
"return the ordered column-name list for the active row; fails if the cursor
state is invalid". -/
def Rows.Columns (rows : Rows) : Except Error (List String) :=
  match rows.columnsErr with
  | some err => .error err
  | none => .ok (rows.row.map Prod.fst)

/-- Modelled from the spec: the loop of `(*sql.Rows).Scan` over the columns (not
part of the repository), "route one per adapter in column order". The value of
column `i` goes to `dest[i].Scan`; the first error stops the loop and is reported
with the column index and name; a panic of a destination propagates. -/
def Rows.scanFrom (i : Nat) : List (String × Raw) → List field → World → Outcome × World
  | (name, sv) :: cols, d :: dest, w =>
    match d.Scan sv w with
    | (.ok, w1) => Rows.scanFrom (i + 1) cols dest w1
    | (.error err, w1) => (.error (.scanColumn i name err), w1)
    | (.panic p, w1) => (.panic p, w1)
  | _, _, w => (.ok, w)

/-- Modelled from the spec: `(*sql.Rows).Scan` (not part of the repository),
"given an ordered list of per-column adapters, extract the active row's raw
values and route one per adapter in column order; fails if the underlying data
source reports an error for that row, or if any adapter's consume step fails".
As in `database/sql`, the number of destinations must be the number of columns. -/
def Rows.Scan (rows : Rows) (dest : List field) (w : World) : Outcome × World :=
  let w0 : World := ⟨w.heap, w.msgs, w.scans + 1⟩
  match rows.scanErr with
  | some err => (.error err, w0)
  | none =>
    if dest.length ≠ rows.row.length then
      (.error (.destinations rows.row.length dest.length), w0)
    else
      Rows.scanFrom 0 rows.row dest w0

/-! ## `bind.go`: `Scan` -/

/-- The loop of `Scan` over the column names (lines 131 to 141): one `field` per
column, in column order, or the error for the first name that `ByName` does not
find. The second `fields.ByName` call of the loop body returns what the first
one did. -/
def Scan.dest (rm : Nat) (fields : List FieldDescriptor) : List String → Except Error (List field)
  | [] => .ok []
  | col :: cols =>
    match ByName fields col with
    | none => .error (.fieldNotInMessage col)
    | some fds =>
      match Scan.dest rm fields cols with
      | .error err => .error err
      | .ok dest => .ok (⟨rm, fds⟩ :: dest)

/-- The function `func Scan(rows *sql.Rows, msg proto.Message) error`; `msg` is the
reference to the target message. -/
def Scan (rows : Rows) (msg : Nat) (w : World) : Outcome × World :=
  let rm := msg
  let fields := (w.msgs rm).Fields
  match rows.Columns with
  | .error err => (.error (.wrap "pbbind Bind" err), w)
  | .ok cols =>
    match Scan.dest rm fields cols with
    | .error err => (.error err, w)
    | .ok dest =>
      match rows.Scan dest w with
      | (.ok, w1) => (.ok, w1)
      | (.error err, w1) => (.error (.wrap "pbbind Scan" err), w1)
      | (.panic p, w1) => (.panic p, w1)

/-! ## Vocabulary of the specification -/

/-- The carrier type each supported kind expects, as the specification lists
them (bool for boolean, int64 for the ten integer kinds, float64 for float and
double, string for text, `[]byte` for bytes); `none` for a kind outside the
fifteen scalar kinds. -/
def Kind.carrier : Kind → Option GoType
  | .BoolKind => some .bool
  | .Int32Kind | .Sint32Kind | .Sfixed32Kind => some .int64
  | .Uint32Kind | .Fixed32Kind => some .int64
  | .Int64Kind | .Sint64Kind | .Sfixed64Kind => some .int64
  | .Uint64Kind | .Fixed64Kind => some .int64
  | .FloatKind | .DoubleKind => some .float64
  | .StringKind => some .string
  | .BytesKind => some .bytes
  | .EnumKind | .MessageKind | .GroupKind => none

/-- The fifteen protobuf scalar kinds. -/
def Kind.scalars : List Kind :=
  [.BoolKind, .Int32Kind, .Sint32Kind, .Sfixed32Kind, .Uint32Kind, .Fixed32Kind,
   .Int64Kind, .Sint64Kind, .Sfixed64Kind, .Uint64Kind, .Fixed64Kind,
   .FloatKind, .DoubleKind, .StringKind, .BytesKind]

/-- The coercion rules of the specification (section 4.1) as a table: the typed
value for a raw value of the expected carrier type, `none` otherwise. -/
def Kind.convert : Kind → Raw → Option Value
  | .BoolKind, .bool d => some (.ValueOfBool d)
  | .Int32Kind, .int64 d | .Sint32Kind, .int64 d | .Sfixed32Kind, .int64 d =>
    some (.ValueOfInt32 (int32OfInt64 d))
  | .Uint32Kind, .int64 d | .Fixed32Kind, .int64 d => some (.ValueOfUint32 (uint32OfInt64 d))
  | .Int64Kind, .int64 d | .Sint64Kind, .int64 d | .Sfixed64Kind, .int64 d =>
    some (.ValueOfInt64 d)
  | .Uint64Kind, .int64 d | .Fixed64Kind, .int64 d => some (.ValueOfUint64 (uint64OfInt64 d))
  | .FloatKind, .float64 d => some (.ValueOfFloat32 (float32OfFloat64 d))
  | .DoubleKind, .float64 d => some (.ValueOfFloat64 d)
  | .StringKind, .string d => some (.ValueOfString d)
  | .BytesKind, .bytes s => some (.ValueOfBytes s)
  | _, _ => none

/-- Whether a stored value is exactly the raw input value: the same truth value,
number, text, or byte contents (read in the state `w`). -/
def Value.exactly (w : World) : Value → Raw → Bool
  | .ValueOfBool v, .bool d => v == d
  | .ValueOfInt32 v, .int64 d => v == d
  | .ValueOfUint32 v, .int64 d => (v : Int) == d
  | .ValueOfInt64 v, .int64 d => v == d
  | .ValueOfUint64 v, .int64 d => (v : Int) == d
  | .ValueOfFloat32 b, .float64 d => float64OfFloat32 b == d
  | .ValueOfFloat64 b, .float64 d => b == d
  | .ValueOfString v, .string d => v == d
  | .ValueOfBytes v, .bytes d => w.bytesOf v == w.bytesOf d
  | _, _ => false

/-- The raw values a kind stores without loss: an `int64` within the range of a
32 bit or unsigned field, a `float64` that single precision represents, and
every value for the other kinds. -/
def Kind.lossless : Kind → Raw → Prop
  | .Int32Kind, .int64 d | .Sint32Kind, .int64 d | .Sfixed32Kind, .int64 d =>
    -2 ^ 31 ≤ d ∧ d < 2 ^ 31
  | .Uint32Kind, .int64 d | .Fixed32Kind, .int64 d => 0 ≤ d ∧ d < 2 ^ 32
  | .Uint64Kind, .int64 d | .Fixed64Kind, .int64 d => 0 ≤ d ∧ d < 2 ^ 64
  | .FloatKind, .float64 d => float64OfFloat32 (float32OfFloat64 d) = d
  | _, _ => True

/-! ## Auxiliary definitions -/

/-- The state `field.Scan` has reached when it leaves the `switch`: for a bytes
field the buffer `d` has been allocated and filled, otherwise nothing changed. -/
def field.scratch (kind : Kind) (src : Raw) (w : World) : World :=
  match kind with
  | .BytesKind =>
    (w.make src.assertBytes.1.len).2.copy (w.make src.assertBytes.1.len).1 src.assertBytes.1
  | _ => w

/-! ## Example schema and states -/

/-- A schema in the manner of the test message of `bind_test.go`, with a map
field `mp` and a repeated field `nums`. -/
def testFields : List FieldDescriptor :=
  [⟨"toggle", .BoolKind, .Optional⟩, ⟨"number", .Int32Kind, .Optional⟩,
   ⟨"snumber", .Sint32Kind, .Optional⟩, ⟨"unumber", .Uint32Kind, .Optional⟩,
   ⟨"large", .Int64Kind, .Optional⟩, ⟨"slarge", .Sint64Kind, .Optional⟩,
   ⟨"ularge", .Uint64Kind, .Optional⟩, ⟨"sfloat", .FloatKind, .Optional⟩,
   ⟨"lfloat", .DoubleKind, .Optional⟩, ⟨"text", .StringKind, .Optional⟩,
   ⟨"bin", .BytesKind, .Optional⟩, ⟨"mp", .MessageKind, .Repeated⟩,
   ⟨"nums", .Int32Kind, .Repeated⟩]

/-- A state whose messages are all empty messages of the test schema and whose
heap holds one buffer with the bytes of "Foo" at address 0. -/
def testWorld : World :=
  ⟨[[70, 111, 111]], fun _ => ⟨testFields, fun _ => none⟩, 0⟩

/-- The row of the first scenario of the specification: columns `toggle`,
`number`, `text` with the values true, 123, "hello". -/
def helloRows : Rows :=
  ⟨none, none, [("toggle", .bool true), ("number", .int64 123), ("text", .string "hello")]⟩

/-- A row whose only column `number` (an int32 field) carries `2^31`. -/
def overflowRows : Rows :=
  ⟨none, none, [("number", .int64 (2 ^ 31))]⟩

/-- A row whose first column resolves and carries a valid value, and whose second
and third column names are not fields of the test schema. -/
def missingRows : Rows :=
  ⟨none, none, [("number", .int64 123), ("missing", .int64 1), ("gone", .int64 2)]⟩

/-- Rows whose column names are available and for which the engine reports a row
error when the values are extracted. (In the test case "Scan error" the failed
`rows.Next()` has closed the rows, so that run already fails in `Columns()`, as
`closedRows` does.) -/
def rowErrorRows : Rows :=
  ⟨none, some (.upstream "Row error"),
    [("text", .string "foo"), ("number", .int64 123), ("large", .int64 20000000)]⟩

/-- Rows that are closed: the column names cannot be retrieved. -/
def closedRows : Rows :=
  ⟨some (.upstream "sql: Rows are closed"), some (.upstream "sql: Rows are closed"),
    [("text", .string "foo")]⟩

/-- A row in the manner of the test case "Type mismatch": the column `text`, after
a valid column, carries an `int64`. -/
def mismatchRows : Rows :=
  ⟨none, none, [("number", .int64 123), ("text", .int64 900), ("large", .int64 20000000)]⟩

/-- A row in the manner of the test case "Type mismatch" whose first column, `text`,
carries an `int64`. -/
def mismatchFirstRows : Rows :=
  ⟨none, none, [("text", .int64 900), ("number", .int64 123)]⟩

/-- A row with a valid column followed by a column of the wrong type. -/
def mismatchRowsNoLarge : Rows :=
  ⟨none, none, [("number", .int64 123), ("text", .int64 900)]⟩

/-- A row with a NULL in its second column. -/
def nullRows : Rows :=
  ⟨none, none, [("number", .int64 123), ("bin", .null)]⟩

/-- A row in which the column `number` occurs twice, around the column `text`. -/
def duplicateRows : Rows :=
  ⟨none, none, [("number", .int64 1), ("text", .string "a"), ("number", .int64 2)]⟩

/-- The row `helloRows` with its columns in another order. -/
def helloRowsPermuted : Rows :=
  ⟨none, none, [("text", .string "hello"), ("toggle", .bool true), ("number", .int64 123)]⟩

/-- The test schema with its fields declared in the reverse order. -/
def testFieldsReversed : List FieldDescriptor :=
  testFields.reverse

/-- The state `testWorld` with the schema declared in the reverse order. -/
def testWorldReversed : World :=
  ⟨[[70, 111, 111]], fun _ => ⟨testFieldsReversed, fun _ => none⟩, 0⟩

/-- A row that names the repeated field `nums`, with a value of the carrier type
of its element kind, before a column of the wrong type. -/
def repeatedFirstRows : Rows :=
  ⟨none, none, [("nums", .int64 1), ("text", .int64 900)]⟩

/-- The row `repeatedFirstRows` with its two columns exchanged. -/
def repeatedLastRows : Rows :=
  ⟨none, none, [("text", .int64 900), ("nums", .int64 1)]⟩

/-! # Theorems -/

/-! ## The conversions -/

theorem int32OfInt64_range (d : Int) : -2 ^ 31 ≤ int32OfInt64 d ∧ int32OfInt64 d < 2 ^ 31 := by
  unfold int32OfInt64
  simp only []
  split <;> omega

theorem int32OfInt64_congr (d : Int) : (2 ^ 32 : Int) ∣ (int32OfInt64 d - d) := by
  unfold int32OfInt64
  simp only []
  split <;> omega

theorem int32OfInt64_unique (d u : Int) (h1 : -2 ^ 31 ≤ u) (h2 : u < 2 ^ 31)
    (h3 : (2 ^ 32 : Int) ∣ (u - d)) : u = int32OfInt64 d := by
  unfold int32OfInt64
  simp only []
  split <;> omega

theorem int32OfInt64_exact (d : Int) : int32OfInt64 d = d ↔ -2 ^ 31 ≤ d ∧ d < 2 ^ 31 := by
  unfold int32OfInt64
  simp only []
  split <;> omega

theorem uint32OfInt64_val (d : Int) : ((uint32OfInt64 d : Nat) : Int) = d % 2 ^ 32 := by
  unfold uint32OfInt64
  omega

theorem uint32OfInt64_exact (d : Int) :
    ((uint32OfInt64 d : Nat) : Int) = d ↔ 0 ≤ d ∧ d < 2 ^ 32 := by
  unfold uint32OfInt64
  omega

theorem uint64OfInt64_val (d : Int) : ((uint64OfInt64 d : Nat) : Int) = d % 2 ^ 64 := by
  unfold uint64OfInt64
  omega

theorem uint64OfInt64_exact (d : Int) :
    ((uint64OfInt64 d : Nat) : Int) = d ↔ 0 ≤ d ∧ d < 2 ^ 64 := by
  unfold uint64OfInt64
  omega

/-! ## `field.Scan` case by case -/

theorem Kind.carrier_eq_none_iff (k : Kind) : k.carrier = none ↔ k ∉ Kind.scalars := by
  cases k <;> simp [Kind.carrier, Kind.scalars]

theorem Kind.not_mem_scalars_iff (k : Kind) :
    k ∉ Kind.scalars ↔ k = .EnumKind ∨ k = .MessageKind ∨ k = .GroupKind := by
  cases k <;> simp [Kind.scalars]

theorem field.scratch_msgs (k : Kind) (src : Raw) (w : World) :
    (field.scratch k src w).msgs = w.msgs := by
  cases k <;> rfl

theorem field.scratch_scans (k : Kind) (src : Raw) (w : World) :
    (field.scratch k src w).scans = w.scans := by
  cases k <;> rfl

/-- A kind outside the scalar kinds: the `default` branch returns at once. -/
theorem field.Scan_unsupported (f : field) (src : Raw) (w : World)
    (h : f.desc.Kind.carrier = none) :
    f.Scan src w = (.error (.unsupportedType f.desc.Kind), w) := by
  unfold field.Scan
  cases hk : f.desc.Kind <;> simp [hk, Kind.carrier] at h ⊢

/-- A scalar kind and a raw value of another type: the type assertion fails and
the mismatch error is returned before anything is stored. -/
theorem field.Scan_mismatch (f : field) (src : Raw) (w : World) (c : GoType)
    (h : f.desc.Kind.carrier = some c) (hne : src.goType ≠ c) :
    f.Scan src w =
      (.error (.cannotScan src.goType f.desc.Kind), field.scratch f.desc.Kind src w) := by
  unfold field.Scan
  cases hk : f.desc.Kind <;>
    simp only [hk, Kind.carrier, Option.some.injEq, reduceCtorEq] at h ⊢ <;>
    subst h <;> cases src <;>
    simp_all [Raw.goType, Raw.assertBool, Raw.assertInt64, Raw.assertFloat64, Raw.assertString,
      Raw.assertBytes, field.store, field.scratch]

/-- A scalar kind and a raw value of the expected type: the value of the table is
handed to `Message.Set`. -/
theorem field.Scan_match (f : field) (src : Raw) (w : World)
    (h : f.desc.Kind.carrier = some src.goType) :
    ∃ v, f.desc.Kind.convert src = some v ∧ f.desc.Kind.accepts v = true ∧
      v.isComposite = false ∧
      f.Scan src w = f.store src f.desc.Kind v true (field.scratch f.desc.Kind src w) := by
  unfold field.Scan
  cases hk : f.desc.Kind <;>
    simp only [hk, Kind.carrier, Option.some.injEq, reduceCtorEq] at h ⊢ <;>
    cases src <;>
    simp_all [Raw.goType, Raw.assertBool, Raw.assertInt64, Raw.assertFloat64, Raw.assertString,
      Raw.assertBytes, field.scratch, Kind.convert, Kind.accepts, Value.isComposite]

/-- The matching case for a singular field: nil is returned and the field holds
the converted value. -/
theorem field.Scan_singular (f : field) (src : Raw) (w : World)
    (h : f.desc.Kind.carrier = some src.goType) (hc : f.desc.Cardinality ≠ .Repeated) :
    ∃ v, f.desc.Kind.convert src = some v ∧
      f.Scan src w = (.ok, (field.scratch f.desc.Kind src w).setMsg f.msg
        ⟨(w.msgs f.msg).Fields,
          fun name => if name = f.desc.Name then some v else (w.msgs f.msg).value name⟩) := by
  obtain ⟨v, hv, hacc, _, hs⟩ := field.Scan_match f src w h
  refine ⟨v, hv, ?_⟩
  rw [hs]
  simp [field.store, Message.Set, hc, hacc, field.scratch_msgs]

/-- The matching case for a repeated field: `Message.Set` panics. -/
theorem field.Scan_repeated (f : field) (src : Raw) (w : World)
    (h : f.desc.Kind.carrier = some src.goType) (hc : f.desc.Cardinality = .Repeated) :
    f.Scan src w =
      (.panic (.scalarIntoRepeated f.desc.Name), field.scratch f.desc.Kind src w) := by
  obtain ⟨v, _, _, hcomp, hs⟩ := field.Scan_match f src w h
  rw [hs]
  simp [field.store, Message.Set, hc, hcomp]

/-- For a scalar kind the call ends in one of three ways. -/
theorem field.Scan_outcome_cases (f : field) (src : Raw) (w : World) (c : GoType)
    (hk : f.desc.Kind.carrier = some c) :
    (f.Scan src w).1 = .ok ∨ (f.Scan src w).1 = .panic (.scalarIntoRepeated f.desc.Name) ∨
      (f.Scan src w).1 = .error (.cannotScan src.goType f.desc.Kind) := by
  by_cases hty : src.goType = c
  · subst hty
    by_cases hc : f.desc.Cardinality = .Repeated
    · rw [field.Scan_repeated f src w hk hc]; simp
    · obtain ⟨v, _, hs⟩ := field.Scan_singular f src w hk hc
      rw [hs]; simp
  · rw [field.Scan_mismatch f src w c hk hty]; simp

/-- What a successful call stores: the field of the adapter holds the converted
value afterwards. -/
theorem field.Scan_singular_value (f : field) (src : Raw) (w : World)
    (h : f.desc.Kind.carrier = some src.goType) (hc : f.desc.Cardinality ≠ .Repeated) :
    (f.Scan src w).1 = .ok ∧
      (f.Scan src w).2.fieldValue f.msg f.desc.Name = f.desc.Kind.convert src := by
  obtain ⟨v, hv, hs⟩ := field.Scan_singular f src w h hc
  rw [hs, hv]
  simp [World.fieldValue, World.setMsg]

/-! ## The effect of `field.Scan` on the state -/

/-- The outcome of `field.Scan` is decided by the descriptor and the raw value;
the state plays no part. -/
theorem field.Scan_outcome_indep (f : field) (src : Raw) (w w1 : World) :
    (f.Scan src w).1 = (f.Scan src w1).1 := by
  cases hk : f.desc.Kind.carrier with
  | none => rw [field.Scan_unsupported f src w hk, field.Scan_unsupported f src w1 hk]
  | some c =>
    by_cases hty : src.goType = c
    · subst hty
      by_cases hc : f.desc.Cardinality = .Repeated
      · rw [field.Scan_repeated f src w hk hc, field.Scan_repeated f src w1 hk hc]
      · rw [(field.Scan_singular_value f src w hk hc).1,
          (field.Scan_singular_value f src w1 hk hc).1]
    · rw [field.Scan_mismatch f src w c hk hty, field.Scan_mismatch f src w1 c hk hty]

/-- The outcome does not depend on the message reference of the adapter either. -/
theorem field.Scan_outcome_msg (r r1 : Nat) (fd : FieldDescriptor) (src : Raw) (w : World) :
    (field.Scan ⟨r, fd⟩ src w).1 = (field.Scan ⟨r1, fd⟩ src w).1 := by
  cases hk : fd.Kind.carrier with
  | none =>
    rw [field.Scan_unsupported ⟨r, fd⟩ src w hk, field.Scan_unsupported ⟨r1, fd⟩ src w hk]
  | some c =>
    by_cases hty : src.goType = c
    · subst hty
      by_cases hc : fd.Cardinality = .Repeated
      · rw [field.Scan_repeated ⟨r, fd⟩ src w hk hc, field.Scan_repeated ⟨r1, fd⟩ src w hk hc]
      · rw [(field.Scan_singular_value ⟨r, fd⟩ src w hk hc).1,
          (field.Scan_singular_value ⟨r1, fd⟩ src w hk hc).1]
    · rw [field.Scan_mismatch ⟨r, fd⟩ src w c hk hty,
        field.Scan_mismatch ⟨r1, fd⟩ src w c hk hty]

/-- The state after `field.Scan`: untouched, or with the unused copy allocated,
or with that and the field of the adapter set. -/
theorem field.Scan_world (f : field) (src : Raw) (w : World) :
    (f.Scan src w).2 = w ∨ (f.Scan src w).2 = field.scratch f.desc.Kind src w ∨
    ∃ v, (f.Scan src w).2 = (field.scratch f.desc.Kind src w).setMsg f.msg
        ⟨(w.msgs f.msg).Fields,
          fun name => if name = f.desc.Name then some v else (w.msgs f.msg).value name⟩ := by
  cases hk : f.desc.Kind.carrier with
  | none => rw [field.Scan_unsupported f src w hk]; simp
  | some c =>
    by_cases hty : src.goType = c
    · subst hty
      by_cases hc : f.desc.Cardinality = .Repeated
      · rw [field.Scan_repeated f src w hk hc]; simp
      · obtain ⟨v, _, hs⟩ := field.Scan_singular f src w hk hc
        rw [hs]
        exact Or.inr (Or.inr ⟨v, rfl⟩)
    · rw [field.Scan_mismatch f src w c hk hty]; simp

/-- Only the field of the adapter can change. -/
theorem field.Scan_frame (f : field) (src : Raw) (w : World) (r : Nat) (name : String)
    (h : r ≠ f.msg ∨ name ≠ f.desc.Name) :
    (f.Scan src w).2.fieldValue r name = w.fieldValue r name := by
  rcases field.Scan_world f src w with hw | hw | ⟨v, hw⟩ <;> rw [hw]
  · simp [World.fieldValue, field.scratch_msgs]
  · simp only [World.fieldValue, World.setMsg, field.scratch_msgs]
    by_cases hr : r = f.msg
    · subst hr
      have hn : name ≠ f.desc.Name := by
        rcases h with h | h
        · exact absurd rfl h
        · exact h
      simp [hn]
    · simp [hr]

/-- The descriptors of the messages never change. -/
theorem field.Scan_Fields (f : field) (src : Raw) (w : World) (r : Nat) :
    ((f.Scan src w).2.msgs r).Fields = (w.msgs r).Fields := by
  rcases field.Scan_world f src w with hw | hw | ⟨v, hw⟩ <;> rw [hw]
  · simp [field.scratch_msgs]
  · simp only [World.setMsg, field.scratch_msgs]
    by_cases hr : r = f.msg
    · subst hr; simp
    · simp [hr]

/-- The adapter does not call `(*sql.Rows).Scan`. -/
theorem field.Scan_scans (f : field) (src : Raw) (w : World) :
    (f.Scan src w).2.scans = w.scans := by
  rcases field.Scan_world f src w with hw | hw | ⟨v, hw⟩ <;> rw [hw]
  · simp [field.scratch_scans]
  · simp [World.setMsg, field.scratch_scans]

/-! ## Resolving the column names -/

theorem ByName_name (fields : List FieldDescriptor) (col : String) (fd : FieldDescriptor)
    (h : ByName fields col = some fd) : fd.Name = col := by
  have := List.find?_some h
  simpa using this

theorem Scan.dest_nil (rm : Nat) (fields : List FieldDescriptor) :
    Scan.dest rm fields [] = .ok [] := rfl

theorem Scan.dest_cons_none (rm : Nat) (fields : List FieldDescriptor) (col : String)
    (cols : List String) (h : ByName fields col = none) :
    Scan.dest rm fields (col :: cols) = .error (.fieldNotInMessage col) := by
  simp [Scan.dest, h]

theorem Scan.dest_cons_some (rm : Nat) (fields : List FieldDescriptor) (col : String)
    (cols : List String) (fd : FieldDescriptor) (h : ByName fields col = some fd) :
    Scan.dest rm fields (col :: cols) =
      match Scan.dest rm fields cols with
      | .error err => .error err
      | .ok dest => .ok (⟨rm, fd⟩ :: dest) := by
  simp [Scan.dest, h]

/-- A destination list for `col :: cols` starts with the adapter of `col`. -/
theorem Scan.dest_cons_ok (rm : Nat) (fields : List FieldDescriptor) (col : String)
    (cols : List String) (dest : List field) (h : Scan.dest rm fields (col :: cols) = .ok dest) :
    ∃ fd rest, ByName fields col = some fd ∧ Scan.dest rm fields cols = .ok rest ∧
      dest = ⟨rm, fd⟩ :: rest := by
  cases hb : ByName fields col with
  | none => rw [Scan.dest_cons_none rm fields col cols hb] at h; cases h
  | some fd =>
    rw [Scan.dest_cons_some rm fields col cols fd hb] at h
    cases hr : Scan.dest rm fields cols with
    | error err => rw [hr] at h; cases h
    | ok rest =>
      rw [hr] at h
      simp only [Except.ok.injEq] at h
      exact ⟨fd, rest, rfl, rfl, h.symm⟩

theorem Scan.dest_length (rm : Nat) (fields : List FieldDescriptor) (cols : List String) :
    ∀ dest, Scan.dest rm fields cols = .ok dest → dest.length = cols.length := by
  induction cols with
  | nil => intro dest h; rw [Scan.dest_nil] at h; cases h; rfl
  | cons col cols ih =>
    intro dest h
    obtain ⟨fd, rest, _, hr, hd⟩ := Scan.dest_cons_ok rm fields col cols dest h
    subst hd
    simp [ih rest hr]

/-- When every name resolves, the destination list is built. -/
theorem Scan.dest_ok (rm : Nat) (fields : List FieldDescriptor) (cols : List String)
    (h : ∀ c ∈ cols, ∃ fd, ByName fields c = some fd) :
    ∃ dest, Scan.dest rm fields cols = .ok dest := by
  induction cols with
  | nil => exact ⟨[], rfl⟩
  | cons col cols ih =>
    obtain ⟨fd, hfd⟩ := h col (List.mem_cons_self _ _)
    obtain ⟨rest, hr⟩ := ih (fun c hc => h c (List.mem_cons_of_mem _ hc))
    refine ⟨⟨rm, fd⟩ :: rest, ?_⟩
    rw [Scan.dest_cons_some rm fields col cols fd hfd, hr]

/-- When the list is built, every name resolved. -/
theorem Scan.dest_resolved (rm : Nat) (fields : List FieldDescriptor) (cols : List String) :
    ∀ dest, Scan.dest rm fields cols = .ok dest → ∀ c ∈ cols, ∃ fd, ByName fields c = some fd := by
  induction cols with
  | nil => intro dest _ c hc; cases hc
  | cons col cols ih =>
    intro dest h c hc
    obtain ⟨fd, rest, hfd, hr, _⟩ := Scan.dest_cons_ok rm fields col cols dest h
    rcases List.mem_cons.1 hc with rfl | hc
    · exact ⟨fd, hfd⟩
    · exact ih rest hr c hc

/-- When some name does not resolve, the loop stops at the first such name. -/
theorem Scan.dest_first_unmatched (rm : Nat) (fields : List FieldDescriptor)
    (cols : List String) (h : ∃ c ∈ cols, ByName fields c = none) :
    ∃ pre col post, cols = pre ++ col :: post ∧
      (∀ c ∈ pre, ∃ fd, ByName fields c = some fd) ∧ ByName fields col = none ∧
      Scan.dest rm fields cols = .error (.fieldNotInMessage col) := by
  induction cols with
  | nil => obtain ⟨c, hc, _⟩ := h; cases hc
  | cons col cols ih =>
    cases hb : ByName fields col with
    | none =>
      exact ⟨[], col, cols, rfl, fun c hc => (by cases hc), hb,
        Scan.dest_cons_none rm fields col cols hb⟩
    | some fd =>
      have h1 : ∃ c ∈ cols, ByName fields c = none := by
        obtain ⟨c, hc, hn⟩ := h
        rcases List.mem_cons.1 hc with rfl | hc
        · rw [hb] at hn; cases hn
        · exact ⟨c, hc, hn⟩
      obtain ⟨pre, c1, post, hsplit, hpre, hnone, herr⟩ := ih h1
      refine ⟨col :: pre, c1, post, by rw [hsplit]; rfl, ?_, hnone, ?_⟩
      · intro c hc
        rcases List.mem_cons.1 hc with rfl | hc
        · exact ⟨fd, hb⟩
        · exact hpre c hc
      · rw [Scan.dest_cons_some rm fields col cols fd hb, herr]

/-! ## The loop of `(*sql.Rows).Scan` over the adapters built by `Scan` -/

/-- The loop changes no field but those of the target message that a column
names. -/
theorem Rows.scanFrom_frame (rm : Nat) (fields : List FieldDescriptor) (r : Nat) (name : String) :
    ∀ (row : List (String × Raw)) (dest : List field) (i : Nat) (w : World),
      Scan.dest rm fields (row.map Prod.fst) = .ok dest →
      (r ≠ rm ∨ name ∉ row.map Prod.fst) →
      (Rows.scanFrom i row dest w).2.fieldValue r name = w.fieldValue r name := by
  intro row
  induction row with
  | nil => intro dest i w _ _; simp [Rows.scanFrom]
  | cons c row ih =>
    intro dest i w hd hn
    obtain ⟨col, sv⟩ := c
    obtain ⟨fd, rest, hfd, hr, hdest⟩ := Scan.dest_cons_ok rm fields col _ dest hd
    subst hdest
    have hname := ByName_name fields col fd hfd
    have hstep : (field.Scan ⟨rm, fd⟩ sv w).2.fieldValue r name = w.fieldValue r name := by
      apply field.Scan_frame
      rcases hn with hn | hn
      · exact Or.inl hn
      · refine Or.inr ?_
        intro he
        apply hn
        simp [he, hname]
    have hn1 : r ≠ rm ∨ name ∉ row.map Prod.fst := by
      rcases hn with hn | hn
      · exact Or.inl hn
      · refine Or.inr ?_
        intro he
        exact hn (by simp only [List.map_cons]; exact List.mem_cons_of_mem _ he)
    simp only [Rows.scanFrom]
    cases hs : field.Scan ⟨rm, fd⟩ sv w with
    | mk o w1 =>
      rw [hs] at hstep
      cases o with
      | ok => simp only []; rw [ih rest (i + 1) w1 hr hn1]; exact hstep
      | error err => exact hstep
      | panic p => exact hstep

/-- The loop leaves the descriptors and the call counter alone. -/
theorem Rows.scanFrom_scans :
    ∀ (row : List (String × Raw)) (dest : List field) (i : Nat) (w : World),
      (Rows.scanFrom i row dest w).2.scans = w.scans := by
  intro row
  induction row with
  | nil => intro dest i w; simp [Rows.scanFrom]
  | cons c row ih =>
    intro dest i w
    obtain ⟨col, sv⟩ := c
    cases dest with
    | nil => simp [Rows.scanFrom]
    | cons d dest =>
      simp only [Rows.scanFrom]
      have hstep := field.Scan_scans d sv w
      cases hs : field.Scan d sv w with
      | mk o w1 =>
        rw [hs] at hstep
        cases o with
        | ok => simp only []; rw [ih dest (i + 1) w1]; exact hstep
        | error err => exact hstep
        | panic p => exact hstep

/-- The loop returns nil exactly when the adapter of every column does. -/
theorem Rows.scanFrom_ok_iff (rm : Nat) (fields : List FieldDescriptor) :
    ∀ (row : List (String × Raw)) (dest : List field) (i : Nat) (w : World),
      Scan.dest rm fields (row.map Prod.fst) = .ok dest →
      ((Rows.scanFrom i row dest w).1 = .ok ↔
        ∀ c ∈ row, ∃ fd, ByName fields c.1 = some fd ∧
          ∀ w1, (field.Scan ⟨rm, fd⟩ c.2 w1).1 = .ok) := by
  intro row
  induction row with
  | nil => intro dest i w _; simp [Rows.scanFrom]
  | cons c row ih =>
    intro dest i w hd
    obtain ⟨col, sv⟩ := c
    obtain ⟨fd, rest, hfd, hr, hdest⟩ := Scan.dest_cons_ok rm fields col _ dest hd
    subst hdest
    simp only [Rows.scanFrom]
    cases hs : field.Scan ⟨rm, fd⟩ sv w with
    | mk o w1 =>
      have ho : ∀ w2, (field.Scan ⟨rm, fd⟩ sv w2).1 = o := by
        intro w2
        rw [field.Scan_outcome_indep ⟨rm, fd⟩ sv w2 w, hs]
      cases o with
      | ok =>
        simp only []
        rw [ih rest (i + 1) w1 hr]
        constructor
        · intro h c hc
          rcases List.mem_cons.1 hc with rfl | hc
          · exact ⟨fd, hfd, ho⟩
          · exact h c hc
        · intro h c hc
          exact h c (List.mem_cons_of_mem _ hc)
      | error err =>
        simp only [reduceCtorEq, false_iff]
        intro h
        obtain ⟨fd1, hfd1, h1⟩ := h (col, sv) (List.mem_cons_self _ _)
        simp only [hfd, Option.some.injEq] at hfd1
        subst hfd1
        have := h1 w
        rw [ho w] at this
        cases this
      | panic p =>
        simp only [reduceCtorEq, false_iff]
        intro h
        obtain ⟨fd1, hfd1, h1⟩ := h (col, sv) (List.mem_cons_self _ _)
        simp only [hfd, Option.some.injEq] at hfd1
        subst hfd1
        have := h1 w
        rw [ho w] at this
        cases this

/-- The loop stops at the first column whose adapter returns an error and reports
that error with the index and the name of the column. -/
theorem Rows.scanFrom_first_error (rm : Nat) (fields : List FieldDescriptor) :
    ∀ (pre : List (String × Raw)) (c : String × Raw) (post : List (String × Raw))
      (dest : List field) (i : Nat) (w : World) (fd : FieldDescriptor) (err : Error),
      Scan.dest rm fields ((pre ++ c :: post).map Prod.fst) = .ok dest →
      (∀ p ∈ pre, ∀ fp, ByName fields p.1 = some fp → (field.Scan ⟨rm, fp⟩ p.2 w).1 = .ok) →
      ByName fields c.1 = some fd → (field.Scan ⟨rm, fd⟩ c.2 w).1 = .error err →
      (Rows.scanFrom i (pre ++ c :: post) dest w).1 = .error (.scanColumn (i + pre.length) c.1 err) := by
  intro pre
  induction pre with
  | nil =>
    intro c post dest i w fd err hd _ hfd herr
    obtain ⟨col, sv⟩ := c
    obtain ⟨fd1, rest, hfd1, hr, hdest⟩ := Scan.dest_cons_ok rm fields col _ dest hd
    subst hdest
    simp only [hfd1, Option.some.injEq] at hfd
    subst hfd
    simp only [List.nil_append, Rows.scanFrom, List.length_nil, Nat.add_zero]
    cases hs : field.Scan ⟨rm, fd1⟩ sv w with
    | mk o w1 =>
      rw [hs] at herr
      simp only at herr
      subst herr
      rfl
  | cons p pre ih =>
    intro c post dest i w fd err hd hpre hfd herr
    obtain ⟨col, sv⟩ := p
    obtain ⟨fp, rest, hfp, hr, hdest⟩ := Scan.dest_cons_ok rm fields col _ dest hd
    subst hdest
    have hok := hpre (col, sv) (List.mem_cons_self _ _) fp hfp
    simp only [List.cons_append, Rows.scanFrom, List.length_cons]
    cases hs : field.Scan ⟨rm, fp⟩ sv w with
    | mk o w1 =>
      rw [hs] at hok
      simp only at hok
      subst hok
      simp only []
      have := ih c post rest (i + 1) w1 fd err hr
        (fun q hq fq hfq => by
          rw [field.Scan_outcome_indep ⟨rm, fq⟩ q.2 w1 w]
          exact hpre q (List.mem_cons_of_mem _ hq) fq hfq)
        hfd (by rw [field.Scan_outcome_indep ⟨rm, fd⟩ c.2 w1 w]; exact herr)
      rw [show i + (pre.length + 1) = i + 1 + pre.length by omega]
      exact this

/-- When every column names a singular field whose kind expects the type of the
column value, and no name occurs twice, the loop returns nil and every named
field holds the converted value of its column. -/
theorem Rows.scanFrom_values (rm : Nat) (fields : List FieldDescriptor) :
    ∀ (row : List (String × Raw)) (dest : List field) (i : Nat) (w : World),
      Scan.dest rm fields (row.map Prod.fst) = .ok dest →
      (row.map Prod.fst).Nodup →
      (∀ c ∈ row, ∀ fd, ByName fields c.1 = some fd →
        fd.Cardinality ≠ .Repeated ∧ fd.Kind.carrier = some c.2.goType) →
      (Rows.scanFrom i row dest w).1 = .ok ∧
      ∀ c ∈ row, ∀ fd, ByName fields c.1 = some fd →
        (Rows.scanFrom i row dest w).2.fieldValue rm c.1 = fd.Kind.convert c.2 := by
  intro row
  induction row with
  | nil => intro dest i w _ _ _; simp [Rows.scanFrom]
  | cons c row ih =>
    intro dest i w hd hnd hgood
    obtain ⟨col, sv⟩ := c
    obtain ⟨fd, rest, hfd, hr, hdest⟩ := Scan.dest_cons_ok rm fields col _ dest hd
    subst hdest
    have hname := ByName_name fields col fd hfd
    obtain ⟨hcard, hcar⟩ := hgood (col, sv) (List.mem_cons_self _ _) fd hfd
    obtain ⟨hok, hval⟩ := field.Scan_singular_value ⟨rm, fd⟩ sv w hcar hcard
    simp only [List.map_cons, List.nodup_cons] at hnd
    simp only [Rows.scanFrom]
    cases hs : field.Scan ⟨rm, fd⟩ sv w with
    | mk o w1 =>
      rw [hs] at hok hval
      simp only at hok hval
      subst hok
      simp only []
      obtain ⟨ihok, ihval⟩ := ih rest (i + 1) w1 hr hnd.2
        (fun c hc => hgood c (List.mem_cons_of_mem _ hc))
      refine ⟨ihok, ?_⟩
      intro c hc fc hfc
      rcases List.mem_cons.1 hc with rfl | hc
      · simp only [hfd, Option.some.injEq] at hfc
        subst hfc
        rw [Rows.scanFrom_frame rm fields rm col row rest (i + 1) w1 hr (Or.inr hnd.1)]
        rw [← hname]
        exact hval
      · exact ihval c hc fc hfc

/-! ## Unfolding `Rows.Scan` and `Scan` -/

theorem Rows.Scan_scanErr (rows : Rows) (dest : List field) (w : World) (e : Error)
    (h : rows.scanErr = some e) :
    rows.Scan dest w = (.error e, ⟨w.heap, w.msgs, w.scans + 1⟩) := by
  simp [Rows.Scan, h]

theorem Rows.Scan_run (rows : Rows) (dest : List field) (w : World)
    (h : rows.scanErr = none) (hl : dest.length = rows.row.length) :
    rows.Scan dest w = Rows.scanFrom 0 rows.row dest ⟨w.heap, w.msgs, w.scans + 1⟩ := by
  simp [Rows.Scan, h, hl]

theorem Rows.Columns_error (rows : Rows) (e : Error) :
    rows.Columns = .error e ↔ rows.columnsErr = some e := by
  unfold Rows.Columns
  cases rows.columnsErr <;> simp

theorem Rows.Columns_ok (rows : Rows) (cols : List String) :
    rows.Columns = .ok cols ↔ rows.columnsErr = none ∧ cols = rows.row.map Prod.fst := by
  unfold Rows.Columns
  cases rows.columnsErr <;> simp [eq_comm]

/-- The column names cannot be retrieved: `Scan` wraps the error and returns. -/
theorem Scan_columns_error (rows : Rows) (msg : Nat) (w : World) (e : Error)
    (h : rows.columnsErr = some e) :
    Scan rows msg w = (.error (.wrap "pbbind Bind" e), w) := by
  simp [Scan, Rows.Columns, h]

/-- A column name does not resolve: `Scan` returns the error of the loop. -/
theorem Scan_dest_error (rows : Rows) (msg : Nat) (w : World) (err : Error)
    (hc : rows.columnsErr = none)
    (hd : Scan.dest msg (w.msgs msg).Fields (rows.row.map Prod.fst) = .error err) :
    Scan rows msg w = (.error err, w) := by
  simp [Scan, Rows.Columns, hc, hd]

/-- Every column name resolves: `Scan` calls `rows.Scan` and passes on what it
returns, an error wrapped. -/
theorem Scan_dest_ok (rows : Rows) (msg : Nat) (w : World) (dest : List field)
    (hc : rows.columnsErr = none)
    (hd : Scan.dest msg (w.msgs msg).Fields (rows.row.map Prod.fst) = .ok dest) :
    Scan rows msg w =
      match rows.Scan dest w with
      | (.ok, w1) => (.ok, w1)
      | (.error err, w1) => (.error (.wrap "pbbind Scan" err), w1)
      | (.panic p, w1) => (.panic p, w1) := by
  simp [Scan, Rows.Columns, hc, hd]

theorem Scan_dest_ok_world (rows : Rows) (msg : Nat) (w : World) (dest : List field)
    (hc : rows.columnsErr = none)
    (hd : Scan.dest msg (w.msgs msg).Fields (rows.row.map Prod.fst) = .ok dest) :
    (Scan rows msg w).2 = (rows.Scan dest w).2 := by
  rw [Scan_dest_ok rows msg w dest hc hd]
  cases hs : rows.Scan dest w with
  | mk o w1 => cases o <;> rfl

theorem Scan_dest_ok_iff (rows : Rows) (msg : Nat) (w : World) (dest : List field)
    (hc : rows.columnsErr = none)
    (hd : Scan.dest msg (w.msgs msg).Fields (rows.row.map Prod.fst) = .ok dest) :
    (Scan rows msg w).1 = .ok ↔ (rows.Scan dest w).1 = .ok := by
  rw [Scan_dest_ok rows msg w dest hc hd]
  cases hs : rows.Scan dest w with
  | mk o w1 => cases o <;> simp

theorem Scan_dest_ok_error (rows : Rows) (msg : Nat) (w : World) (dest : List field) (e : Error)
    (hc : rows.columnsErr = none)
    (hd : Scan.dest msg (w.msgs msg).Fields (rows.row.map Prod.fst) = .ok dest)
    (he : (rows.Scan dest w).1 = .error e) :
    (Scan rows msg w).1 = .error (.wrap "pbbind Scan" e) := by
  rw [Scan_dest_ok rows msg w dest hc hd]
  cases hs : rows.Scan dest w with
  | mk o w1 =>
    rw [hs] at he
    simp only at he
    subst he
    rfl

/-- The stored value is exactly the raw value if and only if the raw value is one
that the kind stores without loss. -/
theorem Kind.convert_exactly (k : Kind) (src : Raw) (v : Value) (w : World)
    (h : k.convert src = some v) : v.exactly w src = true ↔ k.lossless src := by
  cases k <;> cases src <;> simp only [Kind.convert, Option.some.injEq, reduceCtorEq] at h <;>
    subst h <;>
    simp [Value.exactly, Kind.lossless, int32OfInt64_exact, uint32OfInt64_exact,
      uint64OfInt64_exact]

/-! ## More on the outcome and effect of `field.Scan` -/

/-- No kind expects the nil type. -/
theorem Kind.carrier_ne_nil (k : Kind) : k.carrier ≠ some .nil := by
  cases k <;> simp [Kind.carrier]

/-- When `field.Scan` returns nil, the kind is a scalar kind that expects the type
of the raw value, and the field is singular. -/
theorem field.Scan_ok_inv (f : field) (src : Raw) (w : World) (h : (f.Scan src w).1 = .ok) :
    f.desc.Kind.carrier = some src.goType ∧ f.desc.Cardinality ≠ .Repeated := by
  cases hk : f.desc.Kind.carrier with
  | none => rw [field.Scan_unsupported f src w hk] at h; cases h
  | some c =>
    by_cases hty : src.goType = c
    · subst hty
      refine ⟨rfl, ?_⟩
      intro hc
      rw [field.Scan_repeated f src w hk hc] at h
      cases h
    · rw [field.Scan_mismatch f src w c hk hty] at h; cases h

/-- When `field.Scan` does not return nil, no message has changed. -/
theorem field.Scan_not_ok_msgs (f : field) (src : Raw) (w : World)
    (h : (f.Scan src w).1 ≠ .ok) : (f.Scan src w).2.msgs = w.msgs := by
  cases hk : f.desc.Kind.carrier with
  | none => rw [field.Scan_unsupported f src w hk]
  | some c =>
    by_cases hty : src.goType = c
    · subst hty
      by_cases hc : f.desc.Cardinality = .Repeated
      · rw [field.Scan_repeated f src w hk hc]
        exact field.scratch_msgs _ _ _
      · exact absurd (field.Scan_singular_value f src w hk hc).1 h
    · rw [field.Scan_mismatch f src w c hk hty]
      exact field.scratch_msgs _ _ _

/-- A singular field never makes `field.Scan` panic. -/
theorem field.Scan_singular_no_panic (f : field) (src : Raw) (w : World)
    (hc : f.desc.Cardinality ≠ .Repeated) (p : Panic) : (f.Scan src w).1 ≠ .panic p := by
  cases hk : f.desc.Kind.carrier with
  | none => rw [field.Scan_unsupported f src w hk]; simp
  | some c =>
    by_cases hty : src.goType = c
    · subst hty
      rw [(field.Scan_singular_value f src w hk hc).1]; simp
    · rw [field.Scan_mismatch f src w c hk hty]; simp

/-- The buffers of the heap stay as they are; at most the unused copy is added
behind them. -/
theorem field.scratch_heap (k : Kind) (src : Raw) (w : World) :
    ∃ extra, (field.scratch k src w).heap = w.heap ++ extra := by
  by_cases hk : k = .BytesKind
  · subst hk
    refine ⟨[((w.make src.assertBytes.1.len).2.bytesOf src.assertBytes.1).take
        (min src.assertBytes.1.len src.assertBytes.1.len)
      ++ ((w.heap ++ [List.replicate src.assertBytes.1.len 0]).getD w.heap.length []).drop
        (min src.assertBytes.1.len src.assertBytes.1.len)], ?_⟩
    simp [field.scratch, World.make, World.copy, World.bytesOf]
  · refine ⟨[], ?_⟩
    cases k <;> simp [field.scratch] at hk ⊢

theorem field.Scan_heap (f : field) (src : Raw) (w : World) :
    ∃ extra, (f.Scan src w).2.heap = w.heap ++ extra := by
  rcases field.Scan_world f src w with hw | hw | ⟨v, hw⟩ <;> rw [hw]
  · exact ⟨[], by simp⟩
  · exact field.scratch_heap _ _ _
  · exact field.scratch_heap _ _ _

/-- A nil raw value on a field of a scalar kind: the mismatch error. -/
theorem field.Scan_null (f : field) (w : World) (c : GoType)
    (hk : f.desc.Kind.carrier = some c) :
    f.Scan .null w = (.error (.cannotScan .nil f.desc.Kind), field.scratch f.desc.Kind .null w) := by
  have hne : Raw.null.goType ≠ c := by
    intro h
    rw [← h] at hk
    exact Kind.carrier_ne_nil _ hk
  exact field.Scan_mismatch f .null w c hk hne

/-- A nil raw value never makes `field.Scan` return nil. -/
theorem field.Scan_null_not_ok (f : field) (w : World) : (f.Scan .null w).1 ≠ .ok := by
  intro h
  have := (field.Scan_ok_inv f .null w h).1
  exact Kind.carrier_ne_nil _ this

/-! ## The four ways through `Scan` -/

/-- `Scan` ends in one of four ways: the column names cannot be retrieved; a
column name does not resolve; the engine reports a row error before it extracts a
value; or the values are routed to the adapters, one per column. -/
theorem Scan_cases (rows : Rows) (msg : Nat) (w : World) :
    (∃ e, rows.columnsErr = some e ∧ Scan rows msg w = (.error (.wrap "pbbind Bind" e), w)) ∨
    (rows.columnsErr = none ∧ (∃ c ∈ rows.row, ByName (w.msgs msg).Fields c.1 = none) ∧
      ∃ col, Scan rows msg w = (.error (.fieldNotInMessage col), w)) ∨
    (rows.columnsErr = none ∧
      ∃ dest, Scan.dest msg (w.msgs msg).Fields (rows.row.map Prod.fst) = .ok dest ∧
        dest.length = rows.row.length ∧
        ((∃ e, rows.scanErr = some e ∧
            Scan rows msg w =
              (.error (.wrap "pbbind Scan" e), ⟨w.heap, w.msgs, w.scans + 1⟩)) ∨
          (rows.scanErr = none ∧
            Scan rows msg w =
              match Rows.scanFrom 0 rows.row dest ⟨w.heap, w.msgs, w.scans + 1⟩ with
              | (.ok, w1) => (.ok, w1)
              | (.error err, w1) => (.error (.wrap "pbbind Scan" err), w1)
              | (.panic p, w1) => (.panic p, w1)))) := by
  cases hc : rows.columnsErr with
  | some e => exact Or.inl ⟨e, rfl, Scan_columns_error rows msg w e hc⟩
  | none =>
    refine Or.inr ?_
    by_cases hex : ∃ c ∈ rows.row, ByName (w.msgs msg).Fields c.1 = none
    · refine Or.inl ⟨rfl, hex, ?_⟩
      have h1 : ∃ c ∈ rows.row.map Prod.fst, ByName (w.msgs msg).Fields c = none := by
        obtain ⟨c, hcm, hn⟩ := hex
        exact ⟨c.1, List.mem_map.2 ⟨c, hcm, rfl⟩, hn⟩
      obtain ⟨pre, col, post, _, _, _, herr⟩ :=
        Scan.dest_first_unmatched msg (w.msgs msg).Fields _ h1
      exact ⟨col, Scan_dest_error rows msg w _ hc herr⟩
    · have hres : ∀ c ∈ rows.row.map Prod.fst,
          ∃ fd, ByName (w.msgs msg).Fields c = some fd := by
        intro c hcm
        obtain ⟨p, hp, rfl⟩ := List.mem_map.1 hcm
        cases hb : ByName (w.msgs msg).Fields p.1 with
        | none => exact absurd ⟨p, hp, hb⟩ hex
        | some fd => exact ⟨fd, rfl⟩
      obtain ⟨dest, hd⟩ := Scan.dest_ok msg (w.msgs msg).Fields _ hres
      have hlen : dest.length = rows.row.length := by
        rw [Scan.dest_length msg _ _ dest hd, List.length_map]
      refine Or.inr ⟨rfl, dest, hd, hlen, ?_⟩
      cases hs : rows.scanErr with
      | some e =>
        refine Or.inl ⟨e, rfl, ?_⟩
        rw [Scan_dest_ok rows msg w dest hc hd, Rows.Scan_scanErr rows dest w e hs]
      | none =>
        refine Or.inr ⟨rfl, ?_⟩
        rw [Scan_dest_ok rows msg w dest hc hd, Rows.Scan_run rows dest w hs hlen]

/-- `Scan` changes no field but those of the target message that a column names. -/
theorem Scan_fields_frame (rows : Rows) (msg : Nat) (w : World) (r : Nat) (name : String)
    (h : r ≠ msg ∨ name ∉ rows.row.map Prod.fst) :
    (Scan rows msg w).2.fieldValue r name = w.fieldValue r name := by
  rcases Scan_cases rows msg w with ⟨e, _, hs⟩ | ⟨_, _, col, hs⟩ |
    ⟨_, dest, hd, _, ⟨e, _, hs⟩ | ⟨_, hs⟩⟩
  · rw [hs]
  · rw [hs]
  · rw [hs]; rfl
  · rw [hs]
    have hf := Rows.scanFrom_frame msg (w.msgs msg).Fields r name rows.row dest 0
      ⟨w.heap, w.msgs, w.scans + 1⟩ hd h
    cases hr : Rows.scanFrom 0 rows.row dest ⟨w.heap, w.msgs, w.scans + 1⟩ with
    | mk o w1 =>
      rw [hr] at hf
      cases o <;> exact hf

/-- `Scan` returns nil exactly when the column names are retrieved, the engine
reports no row error, every name resolves and every adapter returns nil. -/
theorem Scan_ok_iff (rows : Rows) (msg : Nat) (w : World) :
    (Scan rows msg w).1 = .ok ↔
      rows.columnsErr = none ∧ rows.scanErr = none ∧
      ∀ c ∈ rows.row, ∃ fd, ByName (w.msgs msg).Fields c.1 = some fd ∧
        ∀ w1, (field.Scan ⟨msg, fd⟩ c.2 w1).1 = .ok := by
  rcases Scan_cases rows msg w with ⟨e, hc, hs⟩ | ⟨hc, ⟨c, hcm, hn⟩, col, hs⟩ |
    ⟨hc, dest, hd, _, ⟨e, hse, hs⟩ | ⟨hse, hs⟩⟩
  · rw [hs]; simp [hc]
  · rw [hs]
    simp only [reduceCtorEq, false_iff, not_and]
    intro _ _ hall
    obtain ⟨fd, hfd, _⟩ := hall c hcm
    rw [hn] at hfd
    cases hfd
  · rw [hs]; simp [hse]
  · rw [hs]
    have hiff := Rows.scanFrom_ok_iff msg (w.msgs msg).Fields rows.row dest 0
      ⟨w.heap, w.msgs, w.scans + 1⟩ hd
    cases hr : Rows.scanFrom 0 rows.row dest ⟨w.heap, w.msgs, w.scans + 1⟩ with
    | mk o w1 =>
      rw [hr] at hiff
      cases o
      · simp only [true_iff] at hiff
        simp only [true_iff]
        exact ⟨hc, hse, hiff⟩
      · simp only [reduceCtorEq, false_iff] at hiff ⊢
        exact fun h => hiff h.2.2
      · simp only [reduceCtorEq, false_iff] at hiff ⊢
        exact fun h => hiff h.2.2

/-- The loop does not panic when no column names a repeated field. -/
theorem Rows.scanFrom_no_panic (rm : Nat) (fields : List FieldDescriptor) (p : Panic) :
    ∀ (row : List (String × Raw)) (dest : List field) (i : Nat) (w : World),
      Scan.dest rm fields (row.map Prod.fst) = .ok dest →
      (∀ c ∈ row, ∀ fd, ByName fields c.1 = some fd → fd.Cardinality ≠ .Repeated) →
      (Rows.scanFrom i row dest w).1 ≠ .panic p := by
  intro row
  induction row with
  | nil => intro dest i w _ _; simp [Rows.scanFrom]
  | cons c row ih =>
    intro dest i w hd hsing
    obtain ⟨col, sv⟩ := c
    obtain ⟨fd, rest, hfd, hr, hdest⟩ := Scan.dest_cons_ok rm fields col _ dest hd
    subst hdest
    have hnp := field.Scan_singular_no_panic ⟨rm, fd⟩ sv w
      (hsing (col, sv) (List.mem_cons_self _ _) fd hfd)
    simp only [Rows.scanFrom]
    cases hs : field.Scan ⟨rm, fd⟩ sv w with
    | mk o w1 =>
      rw [hs] at hnp
      cases o with
      | ok => exact ih rest (i + 1) w1 hr (fun c hc => hsing c (List.mem_cons_of_mem _ hc))
      | error err => simp
      | panic q => exact fun h => hnp q rfl

/-- `Scan` does not panic when no column names a repeated field. -/
theorem Scan_no_panic (rows : Rows) (msg : Nat) (w : World) (p : Panic)
    (hsing : ∀ c ∈ rows.row, ∀ fd, ByName (w.msgs msg).Fields c.1 = some fd →
      fd.Cardinality ≠ .Repeated) :
    (Scan rows msg w).1 ≠ .panic p := by
  rcases Scan_cases rows msg w with ⟨e, _, hs⟩ | ⟨_, _, col, hs⟩ |
    ⟨_, dest, hd, _, ⟨e, _, hs⟩ | ⟨_, hs⟩⟩
  · rw [hs]; simp
  · rw [hs]; simp
  · rw [hs]; simp
  · rw [hs]
    have hnp := Rows.scanFrom_no_panic msg (w.msgs msg).Fields p rows.row dest 0
      ⟨w.heap, w.msgs, w.scans + 1⟩ hd hsing
    cases hr : Rows.scanFrom 0 rows.row dest ⟨w.heap, w.msgs, w.scans + 1⟩ with
    | mk o w1 =>
      rw [hr] at hnp
      cases o
      · simp
      · simp
      · simpa using hnp

/-! ## Last write wins, and the first failure stops the loop -/

/-- When the adapter of every column returns nil, the loop returns nil and every
named field holds the converted value of the last column of that name. -/
theorem Rows.scanFrom_last (rm : Nat) (fields : List FieldDescriptor) :
    ∀ (row : List (String × Raw)) (dest : List field) (i : Nat) (w : World),
      Scan.dest rm fields (row.map Prod.fst) = .ok dest →
      (∀ c ∈ row, ∀ fd, ByName fields c.1 = some fd → (field.Scan ⟨rm, fd⟩ c.2 w).1 = .ok) →
      (Rows.scanFrom i row dest w).1 = .ok ∧
      ∀ pre c post, row = pre ++ c :: post → c.1 ∉ post.map Prod.fst →
        ∀ fd, ByName fields c.1 = some fd →
          (Rows.scanFrom i row dest w).2.fieldValue rm c.1 = fd.Kind.convert c.2 := by
  intro row
  induction row with
  | nil =>
    intro dest i w _ _
    refine ⟨by simp [Rows.scanFrom], ?_⟩
    intro pre c post h
    simp at h
  | cons h row ih =>
    intro dest i w hd hok
    obtain ⟨col, sv⟩ := h
    obtain ⟨fd, rest, hfd, hr, hdest⟩ := Scan.dest_cons_ok rm fields col _ dest hd
    subst hdest
    have hname := ByName_name fields col fd hfd
    have hstep := hok (col, sv) (List.mem_cons_self _ _) fd hfd
    obtain ⟨hcar, hcard⟩ := field.Scan_ok_inv ⟨rm, fd⟩ sv w hstep
    obtain ⟨_, hval⟩ := field.Scan_singular_value ⟨rm, fd⟩ sv w hcar hcard
    simp only [Rows.scanFrom]
    cases hs : field.Scan ⟨rm, fd⟩ sv w with
    | mk o w1 =>
      rw [hs] at hstep hval
      simp only at hstep hval
      subst hstep
      simp only []
      obtain ⟨ihok, ihval⟩ := ih rest (i + 1) w1 hr
        (fun c hc fc hfc => by
          rw [field.Scan_outcome_indep ⟨rm, fc⟩ c.2 w1 w]
          exact hok c (List.mem_cons_of_mem _ hc) fc hfc)
      refine ⟨ihok, ?_⟩
      intro pre c post hsplit hlast fc hfc
      cases pre with
      | nil =>
        simp only [List.nil_append, List.cons.injEq] at hsplit
        obtain ⟨hc, hpost⟩ := hsplit
        subst hc
        subst hpost
        simp only [hfd, Option.some.injEq] at hfc
        subst hfc
        rw [Rows.scanFrom_frame rm fields rm col row rest (i + 1) w1 hr (Or.inr hlast)]
        rw [← hname]
        exact hval
      | cons q pre =>
        simp only [List.cons_append, List.cons.injEq] at hsplit
        exact ihval pre c post hsplit.2 hlast fc hfc

/-- The columns before the first failing one are processed as a row of their own,
and the loop goes on from the state they leave. -/
theorem Rows.scanFrom_append (rm : Nat) (fields : List FieldDescriptor) :
    ∀ (pre rest : List (String × Raw)) (dest : List field) (i : Nat) (w : World),
      Scan.dest rm fields ((pre ++ rest).map Prod.fst) = .ok dest →
      (∀ c ∈ pre, ∀ fd, ByName fields c.1 = some fd → (field.Scan ⟨rm, fd⟩ c.2 w).1 = .ok) →
      ∃ dpre drest, dest = dpre ++ drest ∧
        Scan.dest rm fields (pre.map Prod.fst) = .ok dpre ∧
        Scan.dest rm fields (rest.map Prod.fst) = .ok drest ∧
        (Rows.scanFrom i pre dpre w).1 = .ok ∧
        Rows.scanFrom i (pre ++ rest) dest w =
          Rows.scanFrom (i + pre.length) rest drest (Rows.scanFrom i pre dpre w).2 := by
  intro pre
  induction pre with
  | nil =>
    intro rest dest i w hd _
    exact ⟨[], dest, rfl, rfl, hd, by simp [Rows.scanFrom], by simp [Rows.scanFrom]⟩
  | cons h pre ih =>
    intro rest dest i w hd hok
    obtain ⟨col, sv⟩ := h
    obtain ⟨fd, dtail, hfd, hr, hdest⟩ := Scan.dest_cons_ok rm fields col _ dest hd
    subst hdest
    have hstep := hok (col, sv) (List.mem_cons_self _ _) fd hfd
    cases hs : field.Scan ⟨rm, fd⟩ sv w with
    | mk o w1 =>
      rw [hs] at hstep
      simp only at hstep
      subst hstep
      obtain ⟨dpre, drest, hsplit, hdpre, hdrest, hpok, hrun⟩ := ih rest dtail (i + 1) w1 hr
        (fun c hc fc hfc => by
          rw [field.Scan_outcome_indep ⟨rm, fc⟩ c.2 w1 w]
          exact hok c (List.mem_cons_of_mem _ hc) fc hfc)
      refine ⟨⟨rm, fd⟩ :: dpre, drest, by rw [hsplit]; rfl, ?_, hdrest, ?_, ?_⟩
      · simp only [List.map_cons]
        rw [Scan.dest_cons_some rm fields col _ fd hfd, hdpre]
      · simp only [Rows.scanFrom, hs]
        exact hpok
      · simp only [List.cons_append, Rows.scanFrom, hs, List.length_cons]
        rw [hsplit] at hrun ⊢
        rw [show i + (pre.length + 1) = i + 1 + pre.length by omega]
        exact hrun

/-! ## The destination list, index by index -/

/-- The adapter at an index is the one of the column at that index. -/
theorem Scan.dest_get (rm : Nat) (fields : List FieldDescriptor) :
    ∀ (cols : List String) (dest : List field), Scan.dest rm fields cols = .ok dest →
      ∀ (i : Nat) (col : String), cols[i]? = some col →
        ∃ fd, ByName fields col = some fd ∧ dest[i]? = some ⟨rm, fd⟩ := by
  intro cols
  induction cols with
  | nil => intro dest _ i col h; simp at h
  | cons c cols ih =>
    intro dest hd i col h
    obtain ⟨fd, rest, hfd, hr, hdest⟩ := Scan.dest_cons_ok rm fields c cols dest hd
    subst hdest
    cases i with
    | zero =>
      simp only [List.getElem?_cons_zero, Option.some.injEq] at h
      subst h
      exact ⟨fd, hfd, by simp⟩
    | succ j =>
      simp only [List.getElem?_cons_succ] at h
      obtain ⟨fj, hfj, hdj⟩ := ih rest hr j col h
      exact ⟨fj, hfj, by simpa using hdj⟩

/-! ## Independence of the declaration order of the fields -/

/-- In a schema whose field names are distinct, `ByName` returns the one field of
that name. -/
theorem ByName_eq_some_iff (fields : List FieldDescriptor)
    (hnd : (fields.map FieldDescriptor.Name).Nodup) (name : String) (fd : FieldDescriptor) :
    ByName fields name = some fd ↔ fd ∈ fields ∧ fd.Name = name := by
  constructor
  · intro h
    exact ⟨List.mem_of_find?_eq_some h, ByName_name fields name fd h⟩
  · rintro ⟨hmem, hname⟩
    induction fields with
    | nil => cases hmem
    | cons a t ih =>
      simp only [List.map_cons, List.nodup_cons] at hnd
      rcases List.mem_cons.1 hmem with rfl | hmem
      · simp [ByName, List.find?_cons, hname]
      · have hne : a.Name ≠ name := by
          intro he
          apply hnd.1
          rw [he, ← hname]
          exact List.mem_map.2 ⟨fd, hmem, rfl⟩
        have := ih hnd.2 hmem
        simp only [ByName] at this ⊢
        simp [List.find?_cons, hne, this]

/-- The order in which the schema declares its fields does not matter to
`ByName`. -/
theorem ByName_perm (fields fields1 : List FieldDescriptor) (hperm : fields1.Perm fields)
    (hnd : (fields.map FieldDescriptor.Name).Nodup) (name : String) :
    ByName fields1 name = ByName fields name := by
  have hnd1 : (fields1.map FieldDescriptor.Name).Nodup :=
    ((hperm.map FieldDescriptor.Name).nodup_iff).2 hnd
  cases h : ByName fields name with
  | some fd =>
    obtain ⟨hmem, hname⟩ := (ByName_eq_some_iff fields hnd name fd).1 h
    exact (ByName_eq_some_iff fields1 hnd1 name fd).2 ⟨hperm.mem_iff.2 hmem, hname⟩
  | none =>
    cases h1 : ByName fields1 name with
    | none => rfl
    | some fd =>
      obtain ⟨hmem, hname⟩ := (ByName_eq_some_iff fields1 hnd1 name fd).1 h1
      have := (ByName_eq_some_iff fields hnd name fd).2 ⟨hperm.mem_iff.1 hmem, hname⟩
      rw [h] at this
      cases this

/-- After a `Scan` that returned nil, a field named by a column holds the
converted value of the last column of that name. -/
theorem Scan_last_value (rows : Rows) (msg : Nat) (w : World)
    (hok : (Scan rows msg w).1 = .ok)
    (pre : List (String × Raw)) (c : String × Raw) (post : List (String × Raw))
    (hsplit : rows.row = pre ++ c :: post) (hlast : c.1 ∉ post.map Prod.fst)
    (fd : FieldDescriptor) (hfd : ByName (w.msgs msg).Fields c.1 = some fd) :
    (Scan rows msg w).2.fieldValue msg c.1 = fd.Kind.convert c.2 := by
  obtain ⟨hcols, hscan, hall⟩ := (Scan_ok_iff rows msg w).1 hok
  rcases Scan_cases rows msg w with ⟨e2, hc2, _⟩ | ⟨_, ⟨p, hp, hn⟩, _⟩ |
    ⟨_, dest, hd, _, ⟨e2, hs2, _⟩ | ⟨_, hs⟩⟩
  · rw [hcols] at hc2; cases hc2
  · obtain ⟨fp, hfp, _⟩ := hall p hp
    rw [hn] at hfp; cases hfp
  · rw [hscan] at hs2; cases hs2
  · obtain ⟨_, hl⟩ := Rows.scanFrom_last msg (w.msgs msg).Fields rows.row dest 0
      ⟨w.heap, w.msgs, w.scans + 1⟩ hd
      (fun q hq fq hfq => by
        obtain ⟨f1, hf1, hs1⟩ := hall q hq
        rw [hfq] at hf1
        simp only [Option.some.injEq] at hf1
        subst hf1
        exact hs1 _)
    have := hl pre c post hsplit hlast fd hfd
    rw [hs]
    cases hr : Rows.scanFrom 0 rows.row dest ⟨w.heap, w.msgs, w.scans + 1⟩ with
    | mk o w2 =>
      rw [hr] at this
      cases o <;> exact this

/-- In a row with distinct column names every column is the last of its name. -/
theorem nodup_split_last (row pre post : List (String × Raw)) (c : String × Raw)
    (hnd : (row.map Prod.fst).Nodup) (hsplit : row = pre ++ c :: post) :
    c.1 ∉ post.map Prod.fst := by
  rw [hsplit] at hnd
  simp only [List.map_append, List.map_cons] at hnd
  have h2 := (List.nodup_append.1 hnd).2.1
  exact (List.nodup_cons.1 h2).1

/-! ## Column order -/

/-- Column order, as far as the code goes. Take a row with pairwise distinct
column names and a permutation of its (column name, raw value) pairs, handed over
by the engine in the same condition, and two states of the target message with
the same field values whose schemas declare the same fields (with distinct names)
in any two orders. Then `Scan` returns nil on the permuted row exactly when it
does on the original row, and when it does, the target message ends with the same
value in every field. That `Scan` returns an error on the permuted row exactly
when it does on the original row holds for the rows that name no repeated field
only: a repeated field makes `Message.Set` panic, and the order of the columns
decides whether the panic or an error comes first. -/
theorem Scan_column_order_irrelevant (rows rows1 : Rows) (msg : Nat) (w w1 : World)
    (hce : rows1.columnsErr = rows.columnsErr) (hse : rows1.scanErr = rows.scanErr)
    (hperm : rows1.row.Perm rows.row)
    (hnd : (rows.row.map Prod.fst).Nodup)
    (hfields : (w1.msgs msg).Fields.Perm (w.msgs msg).Fields)
    (hnames : ((w.msgs msg).Fields.map FieldDescriptor.Name).Nodup)
    (hvals : ∀ name, w1.fieldValue msg name = w.fieldValue msg name) :
    ((Scan rows1 msg w1).1 = .ok ↔ (Scan rows msg w).1 = .ok) ∧
    ((Scan rows msg w).1 = .ok →
      ∀ name, (Scan rows1 msg w1).2.fieldValue msg name
        = (Scan rows msg w).2.fieldValue msg name) ∧
    ((∀ c ∈ rows.row, ∀ fd, ByName (w.msgs msg).Fields c.1 = some fd →
        fd.Cardinality ≠ .Repeated) →
      ((∃ e, (Scan rows1 msg w1).1 = .error e) ↔ (∃ e, (Scan rows msg w).1 = .error e))) := by
  have hby : ∀ name, ByName (w1.msgs msg).Fields name = ByName (w.msgs msg).Fields name :=
    fun name => ByName_perm _ _ hfields hnames name
  have hokiff : (Scan rows1 msg w1).1 = .ok ↔ (Scan rows msg w).1 = .ok := by
    rw [Scan_ok_iff rows1 msg w1, Scan_ok_iff rows msg w, hce, hse]
    constructor
    · rintro ⟨h1, h2, h3⟩
      refine ⟨h1, h2, fun c hc => ?_⟩
      obtain ⟨fd, hfd, hs⟩ := h3 c (hperm.mem_iff.2 hc)
      exact ⟨fd, by rw [← hby]; exact hfd, hs⟩
    · rintro ⟨h1, h2, h3⟩
      refine ⟨h1, h2, fun c hc => ?_⟩
      obtain ⟨fd, hfd, hs⟩ := h3 c (hperm.mem_iff.1 hc)
      exact ⟨fd, by rw [hby]; exact hfd, hs⟩
  have hnd1 : (rows1.row.map Prod.fst).Nodup := ((hperm.map Prod.fst).nodup_iff).2 hnd
  refine ⟨hokiff, ?_, ?_⟩
  · intro hok name
    have hok1 := hokiff.2 hok
    by_cases hin : name ∈ rows.row.map Prod.fst
    · obtain ⟨c, hc, hcn⟩ := List.mem_map.1 hin
      subst hcn
      obtain ⟨_, _, hall⟩ := (Scan_ok_iff rows msg w).1 hok
      obtain ⟨fd, hfd, _⟩ := hall c hc
      obtain ⟨pre, post, hsplit⟩ := List.append_of_mem hc
      obtain ⟨pre1, post1, hsplit1⟩ := List.append_of_mem (hperm.mem_iff.2 hc)
      rw [Scan_last_value rows msg w hok pre c post hsplit
          (nodup_split_last _ _ _ _ hnd hsplit) fd hfd,
        Scan_last_value rows1 msg w1 hok1 pre1 c post1 hsplit1
          (nodup_split_last _ _ _ _ hnd1 hsplit1) fd (by rw [hby]; exact hfd)]
    · have hin1 : name ∉ rows1.row.map Prod.fst :=
        fun h => hin ((hperm.map Prod.fst).mem_iff.1 h)
      rw [Scan_fields_frame rows msg w msg name (Or.inr hin),
        Scan_fields_frame rows1 msg w1 msg name (Or.inr hin1)]
      exact hvals name
  · intro hsing
    have hsing1 : ∀ c ∈ rows1.row, ∀ fd, ByName (w1.msgs msg).Fields c.1 = some fd →
        fd.Cardinality ≠ .Repeated := by
      intro c hc fd hfd
      exact hsing c (hperm.mem_iff.1 hc) fd (by rw [← hby]; exact hfd)
    have herr : ∀ (r : Rows) (v : World),
        (∀ p, (Scan r msg v).1 ≠ .panic p) →
        ((∃ e, (Scan r msg v).1 = .error e) ↔ (Scan r msg v).1 ≠ .ok) := by
      intro r v hnp
      cases ho : (Scan r msg v).1 with
      | ok => simp
      | error e => simp
      | panic p => exact absurd ho (hnp p)
    rw [herr rows1 w1 (fun p => Scan_no_panic rows1 msg w1 p hsing1),
      herr rows w (fun p => Scan_no_panic rows msg w p hsing)]
    exact not_congr hokiff

theorem Scan_column_order_irrelevant_witness :
    (helloRowsPermuted.row.Perm helloRows.row ∧ (helloRows.row.map Prod.fst).Nodup ∧
      (testWorldReversed.msgs 0).Fields.Perm (testWorld.msgs 0).Fields ∧
      ((testWorld.msgs 0).Fields.map FieldDescriptor.Name).Nodup) ∧
    ((Scan helloRowsPermuted 0 testWorldReversed).1 = .ok ↔
      (Scan helloRows 0 testWorld).1 = .ok) ∧
    ((Scan helloRows 0 testWorld).1 = .ok →
      ∀ name, (Scan helloRowsPermuted 0 testWorldReversed).2.fieldValue 0 name
        = (Scan helloRows 0 testWorld).2.fieldValue 0 name) ∧
    ((∀ c ∈ helloRows.row, ∀ fd, ByName (testWorld.msgs 0).Fields c.1 = some fd →
        fd.Cardinality ≠ .Repeated) →
      ((∃ e, (Scan helloRowsPermuted 0 testWorldReversed).1 = .error e) ↔
        (∃ e, (Scan helloRows 0 testWorld).1 = .error e))) := by
  have hp : helloRowsPermuted.row.Perm helloRows.row := by decide
  have hf : (testWorldReversed.msgs 0).Fields.Perm (testWorld.msgs 0).Fields :=
    List.reverse_perm testFields
  have hn : ((testWorld.msgs 0).Fields.map FieldDescriptor.Name).Nodup := by decide
  exact ⟨⟨hp, by decide, hf, hn⟩,
    Scan_column_order_irrelevant helloRows helloRowsPermuted 0 testWorld testWorldReversed
      rfl rfl hp (by decide) hf hn (fun _ => rfl)⟩

/-! ## The claims -/

/-- C1 (as stated, refuted): the row with the single column `number`, an int32
field, and the `int64` value `2^31` meets the conditions of the claim (the name is
a field, the value has the expected carrier type) and `Scan` returns nil, but the
field then holds `-2^31`, not the input value. -/
theorem Scan_int32_overflow_not_exact :
    (∀ c ∈ overflowRows.row, ∃ fd, ByName (testWorld.msgs 0).Fields c.1 = some fd ∧
      fd.Kind.carrier = some c.2.goType) ∧
    (Scan overflowRows 0 testWorld).2.fieldValue 0 "number" = some (.ValueOfInt32 (-2 ^ 31)) ∧
    ¬ ((Scan overflowRows 0 testWorld).1 = .ok ∧
      ∀ c ∈ overflowRows.row, ∃ v, (Scan overflowRows 0 testWorld).2.fieldValue 0 c.1 = some v ∧
        v.exactly (Scan overflowRows 0 testWorld).2 c.2 = true) := by
  have hval : (Scan overflowRows 0 testWorld).2.fieldValue 0 "number"
      = some (.ValueOfInt32 (-2 ^ 31)) := by decide
  refine ⟨?_, hval, ?_⟩
  · intro c hc
    simp only [overflowRows, List.mem_singleton] at hc
    subst hc
    exact ⟨⟨"number", .Int32Kind, .Optional⟩, by decide, rfl⟩
  · rintro ⟨_, h⟩
    obtain ⟨v, hv, hex⟩ := h ("number", .int64 (2 ^ 31)) (by simp [overflowRows])
    rw [hval] at hv
    simp only [Option.some.injEq] at hv
    subst hv
    revert hex
    decide

/-- C1 (amended): for every row that the engine supplies without error, whose
column names are distinct names of singular fields of the target schema and whose
raw values have the carrier type the kind of the field expects, `Scan` returns
nil and afterwards every field named by a column holds the value that the
coercion of its kind gives for the column value (`int32(d)`, `uint32(d)`,
`uint64(d)`, `float32(d)`, and the value itself for the other kinds). That value
is exactly the input value if and only if the input is stored without loss:
always for bool, int64, sint64, sfixed64, double, string and bytes, and for the
other kinds when it is in the range of the field. -/
theorem Scan_round_trip (rows : Rows) (msg : Nat) (w : World)
    (hcols : rows.columnsErr = none) (hscan : rows.scanErr = none)
    (hnd : (rows.row.map Prod.fst).Nodup)
    (hrow : ∀ c ∈ rows.row, ∃ fd, ByName (w.msgs msg).Fields c.1 = some fd ∧
      fd.Cardinality ≠ .Repeated ∧ fd.Kind.carrier = some c.2.goType) :
    (Scan rows msg w).1 = .ok ∧
    ∀ c ∈ rows.row, ∃ fd v, ByName (w.msgs msg).Fields c.1 = some fd ∧
      (Scan rows msg w).2.fieldValue msg c.1 = some v ∧ fd.Kind.convert c.2 = some v ∧
      (v.exactly (Scan rows msg w).2 c.2 = true ↔ fd.Kind.lossless c.2) := by
  have hres : ∀ c ∈ rows.row.map Prod.fst, ∃ fd, ByName (w.msgs msg).Fields c = some fd := by
    intro c hc
    obtain ⟨p, hp, rfl⟩ := List.mem_map.1 hc
    obtain ⟨fd, hfd, _⟩ := hrow p hp
    exact ⟨fd, hfd⟩
  obtain ⟨dest, hd⟩ := Scan.dest_ok msg (w.msgs msg).Fields _ hres
  have hlen : dest.length = rows.row.length := by
    rw [Scan.dest_length msg _ _ dest hd, List.length_map]
  have hgood : ∀ c ∈ rows.row, ∀ fd, ByName (w.msgs msg).Fields c.1 = some fd →
      fd.Cardinality ≠ .Repeated ∧ fd.Kind.carrier = some c.2.goType := by
    intro c hc fd hfd
    obtain ⟨fd1, hfd1, h1⟩ := hrow c hc
    rw [hfd] at hfd1
    simp only [Option.some.injEq] at hfd1
    subst hfd1
    exact h1
  obtain ⟨hok, hval⟩ := Rows.scanFrom_values msg (w.msgs msg).Fields rows.row dest 0
    ⟨w.heap, w.msgs, w.scans + 1⟩ hd hnd hgood
  have hw := Scan_dest_ok_world rows msg w dest hcols hd
  rw [Rows.Scan_run rows dest w hscan hlen] at hw
  constructor
  · rw [Scan_dest_ok_iff rows msg w dest hcols hd, Rows.Scan_run rows dest w hscan hlen]
    exact hok
  · intro c hc
    obtain ⟨fd, hfd, hcard, hcar⟩ := hrow c hc
    obtain ⟨v, hv, _⟩ := field.Scan_singular ⟨msg, fd⟩ c.2 w hcar hcard
    refine ⟨fd, v, hfd, ?_, hv, Kind.convert_exactly fd.Kind c.2 v _ hv⟩
    rw [hw, hval c hc fd hfd]
    exact hv

theorem Scan_round_trip_witness :
    (helloRows.columnsErr = none ∧ helloRows.scanErr = none ∧
      (helloRows.row.map Prod.fst).Nodup) ∧
    (Scan helloRows 0 testWorld).1 = .ok ∧
    ∀ c ∈ helloRows.row, ∃ fd v, ByName (testWorld.msgs 0).Fields c.1 = some fd ∧
      (Scan helloRows 0 testWorld).2.fieldValue 0 c.1 = some v ∧ fd.Kind.convert c.2 = some v ∧
      (v.exactly (Scan helloRows 0 testWorld).2 c.2 = true ↔ fd.Kind.lossless c.2) :=
  ⟨by decide, Scan_round_trip helloRows 0 testWorld rfl rfl (by decide) (by
    intro c hc
    simp only [helloRows, List.mem_cons, List.mem_singleton, List.not_mem_nil, or_false] at hc
    rcases hc with rfl | rfl | rfl
    · exact ⟨⟨"toggle", .BoolKind, .Optional⟩, by decide, by decide, rfl⟩
    · exact ⟨⟨"number", .Int32Kind, .Optional⟩, by decide, by decide, rfl⟩
    · exact ⟨⟨"text", .StringKind, .Optional⟩, by decide, by decide, rfl⟩)⟩

/-- C2: for every row whose column names the engine supplies and of which at
least one is not the name of a field of the target message, `Scan` returns the
"field not in Message" error naming the first unmatched column in column order
(every column before it resolves). -/
theorem Scan_unmatched_column (rows : Rows) (msg : Nat) (w : World)
    (hcols : rows.columnsErr = none)
    (hmiss : ∃ c ∈ rows.row, ByName (w.msgs msg).Fields c.1 = none) :
    ∃ pre col post, rows.row.map Prod.fst = pre ++ col :: post ∧
      (∀ c ∈ pre, ∃ fd, ByName (w.msgs msg).Fields c = some fd) ∧
      ByName (w.msgs msg).Fields col = none ∧
      (Scan rows msg w).1 = .error (.fieldNotInMessage col) := by
  have h1 : ∃ c ∈ rows.row.map Prod.fst, ByName (w.msgs msg).Fields c = none := by
    obtain ⟨c, hc, hn⟩ := hmiss
    exact ⟨c.1, List.mem_map.2 ⟨c, hc, rfl⟩, hn⟩
  obtain ⟨pre, col, post, hsplit, hpre, hnone, herr⟩ :=
    Scan.dest_first_unmatched msg (w.msgs msg).Fields _ h1
  refine ⟨pre, col, post, hsplit, hpre, hnone, ?_⟩
  rw [Scan_dest_error rows msg w _ hcols herr]

theorem Scan_unmatched_column_witness :
    (missingRows.columnsErr = none ∧
      ∃ c ∈ missingRows.row, ByName (testWorld.msgs 0).Fields c.1 = none) ∧
    ∃ pre col post, missingRows.row.map Prod.fst = pre ++ col :: post ∧
      (∀ c ∈ pre, ∃ fd, ByName (testWorld.msgs 0).Fields c = some fd) ∧
      ByName (testWorld.msgs 0).Fields col = none ∧
      (Scan missingRows 0 testWorld).1 = .error (.fieldNotInMessage col) :=
  ⟨⟨rfl, ("missing", .int64 1), by decide, by decide⟩,
    Scan_unmatched_column missingRows 0 testWorld rfl
      ⟨("missing", .int64 1), by decide, by decide⟩⟩

/-- C3: if the column names cannot be retrieved, or some column name is not the
name of a field, `Scan` returns an error and the state is the one before the
call: the target message is unchanged and `(*sql.Rows).Scan` has not been called,
whatever the columns before the unmatched one are. -/
theorem Scan_fails_before_any_write (rows : Rows) (msg : Nat) (w : World)
    (h : rows.columnsErr ≠ none ∨ ∃ c ∈ rows.row, ByName (w.msgs msg).Fields c.1 = none) :
    (∃ err, (Scan rows msg w).1 = .error err) ∧ (Scan rows msg w).2 = w ∧
    (∀ name, (Scan rows msg w).2.fieldValue msg name = w.fieldValue msg name) ∧
    (Scan rows msg w).2.scans = w.scans := by
  have key : (∃ err, (Scan rows msg w).1 = .error err) ∧ (Scan rows msg w).2 = w := by
    cases hc : rows.columnsErr with
    | some e =>
      rw [Scan_columns_error rows msg w e hc]
      exact ⟨⟨_, rfl⟩, rfl⟩
    | none =>
      rcases h with h | h
      · exact absurd hc h
      · have h1 : ∃ c ∈ rows.row.map Prod.fst, ByName (w.msgs msg).Fields c = none := by
          obtain ⟨c, hcm, hn⟩ := h
          exact ⟨c.1, List.mem_map.2 ⟨c, hcm, rfl⟩, hn⟩
        obtain ⟨pre, col, post, _, _, _, herr⟩ :=
          Scan.dest_first_unmatched msg (w.msgs msg).Fields _ h1
        rw [Scan_dest_error rows msg w _ hc herr]
        exact ⟨⟨_, rfl⟩, rfl⟩
  refine ⟨key.1, key.2, ?_, ?_⟩
  · intro name; rw [key.2]
  · rw [key.2]

theorem Scan_fails_before_any_write_witness :
    (missingRows.columnsErr ≠ none ∨
      ∃ c ∈ missingRows.row, ByName (testWorld.msgs 0).Fields c.1 = none) ∧
    (∃ err, (Scan missingRows 0 testWorld).1 = .error err) ∧
    (Scan missingRows 0 testWorld).2 = testWorld ∧
    (∀ name, (Scan missingRows 0 testWorld).2.fieldValue 0 name
      = testWorld.fieldValue 0 name) ∧
    (Scan missingRows 0 testWorld).2.scans = testWorld.scans :=
  ⟨Or.inr ⟨("missing", .int64 1), by decide, by decide⟩,
    Scan_fails_before_any_write missingRows 0 testWorld
      (Or.inr ⟨("missing", .int64 1), by decide, by decide⟩)⟩

/-- C4 (the code aliases): on the bytes field `bin` and the raw slice at address 0
holding "Foo", `field.Scan` returns nil; the copy `d` it prepares sits in a new
buffer at address 1, but the value stored in the message is the source slice
itself, at address 0. After `s[0] = 'X'` on the source buffer the field reads
"Xoo": the written contents changed. -/
theorem field_Scan_bytes_stores_source_slice :
    (field.Scan ⟨0, ⟨"bin", .BytesKind, .Optional⟩⟩ (.bytes ⟨0, 3⟩) testWorld).1 = .ok ∧
    (field.Scan ⟨0, ⟨"bin", .BytesKind, .Optional⟩⟩ (.bytes ⟨0, 3⟩) testWorld).2.heap
      = [[70, 111, 111], [70, 111, 111]] ∧
    (field.Scan ⟨0, ⟨"bin", .BytesKind, .Optional⟩⟩ (.bytes ⟨0, 3⟩) testWorld).2.fieldValue 0 "bin"
      = some (.ValueOfBytes ⟨0, 3⟩) ∧
    (field.Scan ⟨0, ⟨"bin", .BytesKind, .Optional⟩⟩ (.bytes ⟨0, 3⟩) testWorld).2.fieldBytes 0 "bin"
      = some [70, 111, 111] ∧
    ((field.Scan ⟨0, ⟨"bin", .BytesKind, .Optional⟩⟩ (.bytes ⟨0, 3⟩) testWorld).2.setByte
      ⟨0, 3⟩ 0 88).fieldBytes 0 "bin" = some [88, 111, 111] := by
  decide

/-- C5: for a field of a supported scalar kind, whose kind expects the carrier
type `c`, and every raw value, `field.Scan` returns an error if and only if the
dynamic type of the raw value differs from `c`; the error is then the type
mismatch error naming the type of the raw value and the kind of the field. When
the types agree nothing is parsed or converted across carriers: a singular field
is stored and nil is returned. -/
theorem field_Scan_fails_iff_carrier_differs (f : field) (src : Raw) (w : World) (c : GoType)
    (hk : f.desc.Kind.carrier = some c) :
    ((∃ err, (f.Scan src w).1 = .error err) ↔ src.goType ≠ c) ∧
    (∀ err, (f.Scan src w).1 = .error err → err = .cannotScan src.goType f.desc.Kind) ∧
    (src.goType = c → f.desc.Cardinality ≠ .Repeated → (f.Scan src w).1 = .ok) := by
  by_cases hty : src.goType = c
  · subst hty
    by_cases hc : f.desc.Cardinality = .Repeated
    · rw [field.Scan_repeated f src w hk hc]
      simp [hc]
    · obtain ⟨v, _, hs⟩ := field.Scan_singular f src w hk hc
      rw [hs]
      simp
  · rw [field.Scan_mismatch f src w c hk hty]
    simp [hty]

theorem field_Scan_fails_iff_carrier_differs_witness :
    Kind.carrier .StringKind = some .string ∧
    (((∃ err, (field.Scan ⟨0, ⟨"text", .StringKind, .Optional⟩⟩ (.int64 900) testWorld).1
        = .error err) ↔ (Raw.int64 900).goType ≠ .string) ∧
     (∀ err, (field.Scan ⟨0, ⟨"text", .StringKind, .Optional⟩⟩ (.int64 900) testWorld).1
        = .error err → err = .cannotScan (Raw.int64 900).goType .StringKind) ∧
     ((Raw.int64 900).goType = .string → Cardinality.Optional ≠ .Repeated →
        (field.Scan ⟨0, ⟨"text", .StringKind, .Optional⟩⟩ (.int64 900) testWorld).1 = .ok)) :=
  ⟨by decide, field_Scan_fails_iff_carrier_differs ⟨0, ⟨"text", .StringKind, .Optional⟩⟩
    (.int64 900) testWorld .string (by decide)⟩

/-- C6: `field.Scan` returns the unsupported kind error, whatever the raw value,
exactly when the kind of the field is not one of the fifteen scalar kinds, that
is for the enum, message and group kinds; for a scalar kind it never returns that
error. -/
theorem field_Scan_unsupported_iff_not_scalar (f : field) (src : Raw) (w : World) :
    ((f.Scan src w).1 = .error (.unsupportedType f.desc.Kind) ↔ f.desc.Kind ∉ Kind.scalars) ∧
    (f.desc.Kind ∉ Kind.scalars ↔
      f.desc.Kind = .EnumKind ∨ f.desc.Kind = .MessageKind ∨ f.desc.Kind = .GroupKind) ∧
    (f.desc.Kind ∈ Kind.scalars → ∀ k, (f.Scan src w).1 ≠ .error (.unsupportedType k)) := by
  refine ⟨?_, Kind.not_mem_scalars_iff _, ?_⟩
  · cases hk : f.desc.Kind.carrier with
    | none =>
      rw [field.Scan_unsupported f src w hk]
      simpa using (Kind.carrier_eq_none_iff _).1 hk
    | some c =>
      have hin : ¬ f.desc.Kind ∉ Kind.scalars := by
        rw [← Kind.carrier_eq_none_iff, hk]; simp
      have h5 := (field.Scan_outcome_cases f src w c hk)
      constructor
      · intro h
        rcases h5 with h5 | h5 | h5 <;> rw [h5] at h <;> simp at h
      · intro h
        exact absurd h hin
  · intro hin k
    cases hk : f.desc.Kind.carrier with
    | none => exact absurd ((Kind.carrier_eq_none_iff _).1 hk) (by simpa using hin)
    | some c =>
      rcases field.Scan_outcome_cases f src w c hk with h5 | h5 | h5 <;> rw [h5] <;> simp

/-- C7: `Scan` returns nil only if every step succeeded: if it returns nil, the
column list was retrieved, the engine reported no row error, every column name
resolved to a field descriptor and `field.Scan` returned nil for every column
(and with all that it does return nil). Conversely it returns a non-nil error
when the column list cannot be retrieved, when a column name does not resolve,
and when the adapter of a column returns an error after the adapters of the
columns before it returned nil. -/
theorem Scan_nil_iff_every_step_succeeds (rows : Rows) (msg : Nat) (w : World) :
    ((Scan rows msg w).1 = .ok ↔
      rows.columnsErr = none ∧ rows.scanErr = none ∧
      ∀ c ∈ rows.row, ∃ fd, ByName (w.msgs msg).Fields c.1 = some fd ∧
        ∀ w1, (field.Scan ⟨msg, fd⟩ c.2 w1).1 = .ok) ∧
    (rows.columnsErr ≠ none → ∃ err, (Scan rows msg w).1 = .error err) ∧
    (rows.columnsErr = none → (∃ c ∈ rows.row, ByName (w.msgs msg).Fields c.1 = none) →
      ∃ err, (Scan rows msg w).1 = .error err) ∧
    (∀ pre c post fd e, rows.row = pre ++ c :: post →
      (∀ p ∈ pre, ∀ fp, ByName (w.msgs msg).Fields p.1 = some fp →
        (field.Scan ⟨msg, fp⟩ p.2 w).1 = .ok) →
      ByName (w.msgs msg).Fields c.1 = some fd → (field.Scan ⟨msg, fd⟩ c.2 w).1 = .error e →
      ∃ err, (Scan rows msg w).1 = .error err) := by
  -- the two ways to fail before the engine is asked for the values
  have hA : rows.columnsErr ≠ none → ∃ err, (Scan rows msg w).1 = .error err := by
    intro h
    cases hc : rows.columnsErr with
    | none => exact absurd hc h
    | some e => rw [Scan_columns_error rows msg w e hc]; exact ⟨_, rfl⟩
  have hB : rows.columnsErr = none →
      (∃ c ∈ rows.row, ByName (w.msgs msg).Fields c.1 = none) →
      ∃ err, (Scan rows msg w).1 = .error err := by
    intro hc h
    have h1 : ∃ c ∈ rows.row.map Prod.fst, ByName (w.msgs msg).Fields c = none := by
      obtain ⟨c, hcm, hn⟩ := h
      exact ⟨c.1, List.mem_map.2 ⟨c, hcm, rfl⟩, hn⟩
    obtain ⟨pre, col, post, _, _, _, herr⟩ :=
      Scan.dest_first_unmatched msg (w.msgs msg).Fields _ h1
    rw [Scan_dest_error rows msg w _ hc herr]
    exact ⟨_, rfl⟩
  -- either some name does not resolve or the destination list is built
  have hsplit : (∃ c ∈ rows.row, ByName (w.msgs msg).Fields c.1 = none) ∨
      ∃ dest, Scan.dest msg (w.msgs msg).Fields (rows.row.map Prod.fst) = .ok dest := by
    by_cases hex : ∃ c ∈ rows.row, ByName (w.msgs msg).Fields c.1 = none
    · exact Or.inl hex
    · refine Or.inr (Scan.dest_ok msg _ _ ?_)
      intro c hc
      obtain ⟨p, hp, rfl⟩ := List.mem_map.1 hc
      cases hb : ByName (w.msgs msg).Fields p.1 with
      | none => exact absurd ⟨p, hp, hb⟩ hex
      | some fd => exact ⟨fd, rfl⟩
  refine ⟨?_, hA, hB, ?_⟩
  · constructor
    · intro hok
      cases hc : rows.columnsErr with
      | some e =>
        rw [Scan_columns_error rows msg w e hc] at hok
        cases hok
      | none =>
        rcases hsplit with hmiss | ⟨dest, hd⟩
        · obtain ⟨err, he⟩ := hB hc hmiss
          rw [he] at hok
          cases hok
        · have hlen : dest.length = rows.row.length := by
            rw [Scan.dest_length msg _ _ dest hd, List.length_map]
          rw [Scan_dest_ok_iff rows msg w dest hc hd] at hok
          cases hs : rows.scanErr with
          | some e =>
            rw [Rows.Scan_scanErr rows dest w e hs] at hok
            cases hok
          | none =>
            rw [Rows.Scan_run rows dest w hs hlen] at hok
            exact ⟨rfl, rfl, (Rows.scanFrom_ok_iff msg _ rows.row dest 0 _ hd).1 hok⟩
    · rintro ⟨hc, hs, hall⟩
      have hres : ∀ c ∈ rows.row.map Prod.fst,
          ∃ fd, ByName (w.msgs msg).Fields c = some fd := by
        intro c hcm
        obtain ⟨p, hp, rfl⟩ := List.mem_map.1 hcm
        obtain ⟨fd, hfd, _⟩ := hall p hp
        exact ⟨fd, hfd⟩
      obtain ⟨dest, hd⟩ := Scan.dest_ok msg (w.msgs msg).Fields _ hres
      have hlen : dest.length = rows.row.length := by
        rw [Scan.dest_length msg _ _ dest hd, List.length_map]
      rw [Scan_dest_ok_iff rows msg w dest hc hd, Rows.Scan_run rows dest w hs hlen]
      exact (Rows.scanFrom_ok_iff msg _ rows.row dest 0 _ hd).2 hall
  · intro pre c post fd e hrow hpre hfd herr
    cases hc : rows.columnsErr with
    | some e1 => exact hA (by rw [hc]; simp)
    | none =>
      rcases hsplit with hmiss | ⟨dest, hd⟩
      · exact hB hc hmiss
      · have hlen : dest.length = rows.row.length := by
          rw [Scan.dest_length msg _ _ dest hd, List.length_map]
        cases hs : rows.scanErr with
        | some e1 =>
          refine ⟨_, Scan_dest_ok_error rows msg w dest e1 hc hd ?_⟩
          rw [Rows.Scan_scanErr rows dest w e1 hs]
        | none =>
          refine ⟨_, Scan_dest_ok_error rows msg w dest
            (.scanColumn (0 + pre.length) c.1 e) hc hd ?_⟩
          rw [Rows.Scan_run rows dest w hs hlen]
          rw [hrow] at hd ⊢
          exact Rows.scanFrom_first_error msg _ pre c post dest 0 _ fd e hd
            (fun p hp fp hfp => by
              rw [field.Scan_outcome_indep ⟨msg, fp⟩ p.2 _ w]
              exact hpre p hp fp hfp)
            hfd (by rw [field.Scan_outcome_indep ⟨msg, fd⟩ c.2 _ w]; exact herr)

theorem Scan_nil_iff_every_step_succeeds_witness :
    (Scan helloRows 0 testWorld).1 = .ok ∧
    (∃ err, (Scan closedRows 0 testWorld).1 = .error err) ∧
    (∃ err, (Scan missingRows 0 testWorld).1 = .error err) ∧
    (∃ err, (Scan mismatchRows 0 testWorld).1 = .error err) := by
  refine ⟨?_, ?_, ?_, ?_⟩
  · refine (Scan_nil_iff_every_step_succeeds helloRows 0 testWorld).1.2 ⟨rfl, rfl, ?_⟩
    intro c hc
    simp only [helloRows, List.mem_cons, List.mem_singleton, List.not_mem_nil, or_false] at hc
    rcases hc with rfl | rfl | rfl
    · exact ⟨⟨"toggle", .BoolKind, .Optional⟩, by decide, fun w1 =>
        (field.Scan_singular_value ⟨0, ⟨"toggle", .BoolKind, .Optional⟩⟩ (.bool true) w1 rfl
          (by decide)).1⟩
    · exact ⟨⟨"number", .Int32Kind, .Optional⟩, by decide, fun w1 =>
        (field.Scan_singular_value ⟨0, ⟨"number", .Int32Kind, .Optional⟩⟩ (.int64 123) w1 rfl
          (by decide)).1⟩
    · exact ⟨⟨"text", .StringKind, .Optional⟩, by decide, fun w1 =>
        (field.Scan_singular_value ⟨0, ⟨"text", .StringKind, .Optional⟩⟩ (.string "hello") w1
          rfl (by decide)).1⟩
  · exact (Scan_nil_iff_every_step_succeeds closedRows 0 testWorld).2.1 (by decide)
  · exact (Scan_nil_iff_every_step_succeeds missingRows 0 testWorld).2.2.1 rfl
      ⟨("missing", .int64 1), by decide, by decide⟩
  · exact (Scan_nil_iff_every_step_succeeds mismatchRows 0 testWorld).2.2.2
      [("number", .int64 123)] ("text", .int64 900) [("large", .int64 20000000)]
      ⟨"text", .StringKind, .Optional⟩ (.cannotScan .int64 .StringKind) rfl
      (by
        intro p hp fp hfp
        simp only [List.mem_singleton] at hp
        subst hp
        have hfd : fp = ⟨"number", .Int32Kind, .Optional⟩ := by
          have h0 : ByName (testWorld.msgs 0).Fields "number"
              = some ⟨"number", .Int32Kind, .Optional⟩ := by decide
          rw [h0] at hfp
          simp only [Option.some.injEq] at hfp
          exact hfp.symm
        subst hfd
        decide)
      (by decide) (by decide)

/-- C8: upstream errors are wrapped, not swallowed. If the engine fails to supply
the column names with error `e`, `Scan` returns `e` wrapped with the prefix
"pbbind Bind"; if its value extraction, called with the adapters `Scan` built,
reports error `e`, `Scan` returns `e` wrapped with the prefix "pbbind Scan". In
both cases `e` is what unwrapping the returned error gives. In particular a row
error `e` of the engine comes back as "pbbind Scan" around `e`, and the error `e`
of the first failing adapter comes back as "pbbind Scan" around the column error
of the engine, which wraps `e`. -/
theorem Scan_wraps_upstream_errors (rows : Rows) (msg : Nat) (w : World) (e : Error) :
    (rows.Columns = .error e →
      (Scan rows msg w).1 = .error (.wrap "pbbind Bind" e) ∧
      (Error.wrap "pbbind Bind" e).Unwrap = some e) ∧
    (∀ cols dest, rows.Columns = .ok cols →
      Scan.dest msg (w.msgs msg).Fields cols = .ok dest →
      (rows.Scan dest w).1 = .error e →
      (Scan rows msg w).1 = .error (.wrap "pbbind Scan" e) ∧
      (Error.wrap "pbbind Scan" e).Unwrap = some e) ∧
    (rows.columnsErr = none → rows.scanErr = some e →
      (∀ c ∈ rows.row, ∃ fd, ByName (w.msgs msg).Fields c.1 = some fd) →
      (Scan rows msg w).1 = .error (.wrap "pbbind Scan" e)) ∧
    (∀ pre c post fd, rows.columnsErr = none → rows.scanErr = none →
      (∀ c ∈ rows.row, ∃ fd, ByName (w.msgs msg).Fields c.1 = some fd) →
      rows.row = pre ++ c :: post →
      (∀ p ∈ pre, ∀ fp, ByName (w.msgs msg).Fields p.1 = some fp →
        (field.Scan ⟨msg, fp⟩ p.2 w).1 = .ok) →
      ByName (w.msgs msg).Fields c.1 = some fd → (field.Scan ⟨msg, fd⟩ c.2 w).1 = .error e →
      (Scan rows msg w).1 = .error (.wrap "pbbind Scan" (.scanColumn pre.length c.1 e)) ∧
      (Error.wrap "pbbind Scan" (.scanColumn pre.length c.1 e)).Unwrap.bind Error.Unwrap
        = some e) := by
  have hdest : (∀ c ∈ rows.row, ∃ fd, ByName (w.msgs msg).Fields c.1 = some fd) →
      ∃ dest, Scan.dest msg (w.msgs msg).Fields (rows.row.map Prod.fst) = .ok dest ∧
        dest.length = rows.row.length := by
    intro hall
    have hres : ∀ c ∈ rows.row.map Prod.fst,
        ∃ fd, ByName (w.msgs msg).Fields c = some fd := by
      intro c hcm
      obtain ⟨p, hp, rfl⟩ := List.mem_map.1 hcm
      exact hall p hp
    obtain ⟨dest, hd⟩ := Scan.dest_ok msg (w.msgs msg).Fields _ hres
    exact ⟨dest, hd, by rw [Scan.dest_length msg _ _ dest hd, List.length_map]⟩
  refine ⟨?_, ?_, ?_, ?_⟩
  · intro h
    rw [Rows.Columns_error] at h
    rw [Scan_columns_error rows msg w e h]
    exact ⟨rfl, rfl⟩
  · intro cols dest hcols hd he
    rw [Rows.Columns_ok] at hcols
    obtain ⟨hc, rfl⟩ := hcols
    exact ⟨Scan_dest_ok_error rows msg w dest e hc hd he, rfl⟩
  · intro hc hs hall
    obtain ⟨dest, hd, _⟩ := hdest hall
    refine Scan_dest_ok_error rows msg w dest e hc hd ?_
    rw [Rows.Scan_scanErr rows dest w e hs]
  · intro pre c post fd hc hs hall hrow hpre hfd herr
    obtain ⟨dest, hd, hlen⟩ := hdest hall
    refine ⟨Scan_dest_ok_error rows msg w dest _ hc hd ?_, rfl⟩
    rw [Rows.Scan_run rows dest w hs hlen]
    rw [hrow] at hd ⊢
    have := Rows.scanFrom_first_error msg _ pre c post dest 0 ⟨w.heap, w.msgs, w.scans + 1⟩
      fd e hd
      (fun p hp fp hfp => by
        rw [field.Scan_outcome_indep ⟨msg, fp⟩ p.2 _ w]
        exact hpre p hp fp hfp)
      hfd (by rw [field.Scan_outcome_indep ⟨msg, fd⟩ c.2 _ w]; exact herr)
    rw [this, Nat.zero_add]

theorem Scan_wraps_upstream_errors_witness :
    (closedRows.Columns = .error (.upstream "sql: Rows are closed") ∧
      (Scan closedRows 0 testWorld).1
        = .error (.wrap "pbbind Bind" (.upstream "sql: Rows are closed"))) ∧
    (rowErrorRows.scanErr = some (.upstream "Row error") ∧
      (Scan rowErrorRows 0 testWorld).1 = .error (.wrap "pbbind Scan" (.upstream "Row error"))) ∧
    ((field.Scan ⟨0, ⟨"text", .StringKind, .Optional⟩⟩ (.int64 900) testWorld).1
        = .error (.cannotScan .int64 .StringKind) ∧
      (Scan mismatchRows 0 testWorld).1 = .error (.wrap "pbbind Scan"
        (.scanColumn 1 "text" (.cannotScan .int64 .StringKind)))) := by
  refine ⟨⟨rfl, ?_⟩, ⟨rfl, ?_⟩, ⟨by decide, ?_⟩⟩
  · exact ((Scan_wraps_upstream_errors closedRows 0 testWorld
      (.upstream "sql: Rows are closed")).1 rfl).1
  · refine (Scan_wraps_upstream_errors rowErrorRows 0 testWorld
      (.upstream "Row error")).2.2.1 rfl rfl ?_
    intro c hc
    simp only [rowErrorRows, List.mem_cons, List.mem_singleton, List.not_mem_nil,
      or_false] at hc
    rcases hc with rfl | rfl | rfl
    · exact ⟨⟨"text", .StringKind, .Optional⟩, by decide⟩
    · exact ⟨⟨"number", .Int32Kind, .Optional⟩, by decide⟩
    · exact ⟨⟨"large", .Int64Kind, .Optional⟩, by decide⟩
  · refine ((Scan_wraps_upstream_errors mismatchRows 0 testWorld
      (.cannotScan .int64 .StringKind)).2.2.2
      [("number", .int64 123)] ("text", .int64 900) [("large", .int64 20000000)]
      ⟨"text", .StringKind, .Optional⟩ rfl rfl ?_ rfl ?_ (by decide) (by decide)).1
    · intro c hc
      simp only [mismatchRows, List.mem_cons, List.mem_singleton, List.not_mem_nil,
        or_false] at hc
      rcases hc with rfl | rfl | rfl
      · exact ⟨⟨"number", .Int32Kind, .Optional⟩, by decide⟩
      · exact ⟨⟨"text", .StringKind, .Optional⟩, by decide⟩
      · exact ⟨⟨"large", .Int64Kind, .Optional⟩, by decide⟩
    · intro p hp fp hfp
      simp only [List.mem_singleton] at hp
      subst hp
      have hfd : fp = ⟨"number", .Int32Kind, .Optional⟩ := by
        have h0 : ByName (testWorld.msgs 0).Fields "number"
            = some ⟨"number", .Int32Kind, .Optional⟩ := by decide
        rw [h0] at hfp
        simp only [Option.some.injEq] at hfp
        exact hfp.symm
      subst hfd
      decide

/-- C9: for a singular field of kind int32, sint32 or sfixed32 and every `int64`
raw value `d`, `field.Scan` returns nil (no `d` is rejected) and the field then
holds the signed 32 bit narrowing of `d`: the only `v` with
`-2^31 ≤ v < 2^31` that is congruent to `d` modulo `2^32`; `v` is `d` itself if
and only if `-2^31 ≤ d < 2^31`. -/
theorem field_Scan_int32_narrows (f : field) (d : Int) (w : World)
    (hk : f.desc.Kind = .Int32Kind ∨ f.desc.Kind = .Sint32Kind ∨ f.desc.Kind = .Sfixed32Kind)
    (hc : f.desc.Cardinality ≠ .Repeated) :
    (f.Scan (.int64 d) w).1 = .ok ∧
    ∃ v : Int, (f.Scan (.int64 d) w).2.fieldValue f.msg f.desc.Name = some (.ValueOfInt32 v) ∧
      (-2 ^ 31 ≤ v ∧ v < 2 ^ 31) ∧ (2 ^ 32 : Int) ∣ (v - d) ∧
      (∀ u : Int, -2 ^ 31 ≤ u → u < 2 ^ 31 → (2 ^ 32 : Int) ∣ (u - d) → u = v) ∧
      (v = d ↔ -2 ^ 31 ≤ d ∧ d < 2 ^ 31) := by
  have hcar : f.desc.Kind.carrier = some (Raw.int64 d).goType := by
    rcases hk with hk | hk | hk <;> rw [hk] <;> rfl
  have hconv : f.desc.Kind.convert (.int64 d) = some (.ValueOfInt32 (int32OfInt64 d)) := by
    rcases hk with hk | hk | hk <;> rw [hk] <;> rfl
  obtain ⟨hok, hval⟩ := field.Scan_singular_value f (.int64 d) w hcar hc
  refine ⟨hok, int32OfInt64 d, ?_, int32OfInt64_range d, int32OfInt64_congr d, ?_,
    int32OfInt64_exact d⟩
  · rw [hval, hconv]
  · intro u h1 h2 h3
    exact int32OfInt64_unique d u h1 h2 h3

theorem field_Scan_int32_narrows_witness :
    ((Kind.Int32Kind = .Int32Kind ∨ Kind.Int32Kind = .Sint32Kind ∨
        Kind.Int32Kind = .Sfixed32Kind) ∧ Cardinality.Optional ≠ .Repeated) ∧
    ((field.Scan ⟨0, ⟨"number", .Int32Kind, .Optional⟩⟩ (.int64 (2 ^ 31 + 5)) testWorld).1 = .ok ∧
     ∃ v : Int, (field.Scan ⟨0, ⟨"number", .Int32Kind, .Optional⟩⟩ (.int64 (2 ^ 31 + 5))
          testWorld).2.fieldValue 0 "number" = some (.ValueOfInt32 v) ∧
      (-2 ^ 31 ≤ v ∧ v < 2 ^ 31) ∧ (2 ^ 32 : Int) ∣ (v - (2 ^ 31 + 5)) ∧
      (∀ u : Int, -2 ^ 31 ≤ u → u < 2 ^ 31 → (2 ^ 32 : Int) ∣ (u - (2 ^ 31 + 5)) → u = v) ∧
      (v = 2 ^ 31 + 5 ↔ -2 ^ 31 ≤ (2 ^ 31 + 5 : Int) ∧ (2 ^ 31 + 5 : Int) < 2 ^ 31)) :=
  ⟨by decide, field_Scan_int32_narrows ⟨0, ⟨"number", .Int32Kind, .Optional⟩⟩ (2 ^ 31 + 5)
    testWorld (by decide) (by decide)⟩

/-- C10: for every `int64` raw value `d` (so `-2^63 ≤ d < 2^63`), `field.Scan` on
a singular uint32 or fixed32 field `f32` returns nil and stores `d mod 2^32`, and
on a singular uint64 or fixed64 field `f64` returns nil and stores `d mod 2^64`;
a negative `d` is not rejected. The stored number is `d` itself if and only if
`0 ≤ d < 2^32`, respectively `0 ≤ d`. -/
theorem field_Scan_unsigned_reinterprets (f32 f64 : field) (d : Int) (w : World)
    (hd : -2 ^ 63 ≤ d ∧ d < 2 ^ 63)
    (hk32 : f32.desc.Kind = .Uint32Kind ∨ f32.desc.Kind = .Fixed32Kind)
    (hc32 : f32.desc.Cardinality ≠ .Repeated)
    (hk64 : f64.desc.Kind = .Uint64Kind ∨ f64.desc.Kind = .Fixed64Kind)
    (hc64 : f64.desc.Cardinality ≠ .Repeated) :
    ((f32.Scan (.int64 d) w).1 = .ok ∧
      ∃ n : Nat, (f32.Scan (.int64 d) w).2.fieldValue f32.msg f32.desc.Name
          = some (.ValueOfUint32 n) ∧
        (n : Int) = d % 2 ^ 32 ∧ ((n : Int) = d ↔ 0 ≤ d ∧ d < 2 ^ 32)) ∧
    ((f64.Scan (.int64 d) w).1 = .ok ∧
      ∃ n : Nat, (f64.Scan (.int64 d) w).2.fieldValue f64.msg f64.desc.Name
          = some (.ValueOfUint64 n) ∧
        (n : Int) = d % 2 ^ 64 ∧ ((n : Int) = d ↔ 0 ≤ d)) := by
  constructor
  · have hcar : f32.desc.Kind.carrier = some (Raw.int64 d).goType := by
      rcases hk32 with hk | hk <;> rw [hk] <;> rfl
    have hconv : f32.desc.Kind.convert (.int64 d) = some (.ValueOfUint32 (uint32OfInt64 d)) := by
      rcases hk32 with hk | hk <;> rw [hk] <;> rfl
    obtain ⟨hok, hval⟩ := field.Scan_singular_value f32 (.int64 d) w hcar hc32
    exact ⟨hok, uint32OfInt64 d, by rw [hval, hconv], uint32OfInt64_val d,
      uint32OfInt64_exact d⟩
  · have hcar : f64.desc.Kind.carrier = some (Raw.int64 d).goType := by
      rcases hk64 with hk | hk <;> rw [hk] <;> rfl
    have hconv : f64.desc.Kind.convert (.int64 d) = some (.ValueOfUint64 (uint64OfInt64 d)) := by
      rcases hk64 with hk | hk <;> rw [hk] <;> rfl
    obtain ⟨hok, hval⟩ := field.Scan_singular_value f64 (.int64 d) w hcar hc64
    refine ⟨hok, uint64OfInt64 d, by rw [hval, hconv], uint64OfInt64_val d, ?_⟩
    rw [uint64OfInt64_exact d]
    omega

theorem field_Scan_unsigned_reinterprets_witness :
    ((-2 ^ 63 ≤ (-1 : Int) ∧ (-1 : Int) < 2 ^ 63) ∧
      (Kind.Uint32Kind = .Uint32Kind ∨ Kind.Uint32Kind = .Fixed32Kind) ∧
      (Kind.Fixed64Kind = .Uint64Kind ∨ Kind.Fixed64Kind = .Fixed64Kind) ∧
      Cardinality.Optional ≠ .Repeated) ∧
    (field.Scan ⟨0, ⟨"unumber", .Uint32Kind, .Optional⟩⟩ (.int64 (-1)) testWorld).1 = .ok ∧
    (field.Scan ⟨0, ⟨"unumber", .Uint32Kind, .Optional⟩⟩ (.int64 (-1))
        testWorld).2.fieldValue 0 "unumber" = some (.ValueOfUint32 (2 ^ 32 - 1)) ∧
    (field.Scan ⟨0, ⟨"ufixed", .Fixed64Kind, .Optional⟩⟩ (.int64 (-1)) testWorld).1 = .ok ∧
    (field.Scan ⟨0, ⟨"ufixed", .Fixed64Kind, .Optional⟩⟩ (.int64 (-1))
        testWorld).2.fieldValue 0 "ufixed" = some (.ValueOfUint64 (2 ^ 64 - 1)) := by
  obtain ⟨⟨h1, n, hn, hmod, _⟩, h2, m, hm, hmod2, _⟩ :=
    field_Scan_unsigned_reinterprets ⟨0, ⟨"unumber", .Uint32Kind, .Optional⟩⟩
      ⟨0, ⟨"ufixed", .Fixed64Kind, .Optional⟩⟩ (-1) testWorld (by decide) (by decide)
      (by decide) (by decide) (by decide)
  have e1 : n = 2 ^ 32 - 1 := by omega
  have e2 : m = 2 ^ 64 - 1 := by omega
  subst e1 e2
  exact ⟨by decide, h1, hn, h2, hm⟩

/-- C11: whenever `field.Scan` returns nil, the field of the adapter holds the
converted value, every other field of the target message (and every field of
every other message) has the value it had before the call, no descriptor has
changed, and the buffers of the heap are as they were (at most the unused copy of
a bytes value is added behind them). -/
theorem field_Scan_success_writes_one_field (f : field) (src : Raw) (w : World)
    (hok : (f.Scan src w).1 = .ok) :
    (∃ v, f.desc.Kind.convert src = some v ∧
      (f.Scan src w).2.fieldValue f.msg f.desc.Name = some v) ∧
    (∀ r name, (r ≠ f.msg ∨ name ≠ f.desc.Name) →
      (f.Scan src w).2.fieldValue r name = w.fieldValue r name) ∧
    (∀ r, ((f.Scan src w).2.msgs r).Fields = (w.msgs r).Fields) ∧
    (∃ extra, (f.Scan src w).2.heap = w.heap ++ extra) ∧
    (f.Scan src w).2.scans = w.scans := by
  obtain ⟨hcar, hcard⟩ := field.Scan_ok_inv f src w hok
  obtain ⟨v, hv, _⟩ := field.Scan_singular f src w hcar hcard
  refine ⟨⟨v, hv, ?_⟩, fun r name h => field.Scan_frame f src w r name h,
    fun r => field.Scan_Fields f src w r, field.Scan_heap f src w, field.Scan_scans f src w⟩
  rw [(field.Scan_singular_value f src w hcar hcard).2, hv]

theorem field_Scan_success_writes_one_field_witness :
    (field.Scan ⟨0, ⟨"bin", .BytesKind, .Optional⟩⟩ (.bytes ⟨0, 3⟩) testWorld).1 = .ok ∧
    (∃ v, Kind.convert .BytesKind (.bytes ⟨0, 3⟩) = some v ∧
      (field.Scan ⟨0, ⟨"bin", .BytesKind, .Optional⟩⟩ (.bytes ⟨0, 3⟩)
        testWorld).2.fieldValue 0 "bin" = some v) ∧
    (∀ r name, (r ≠ 0 ∨ name ≠ "bin") →
      (field.Scan ⟨0, ⟨"bin", .BytesKind, .Optional⟩⟩ (.bytes ⟨0, 3⟩)
        testWorld).2.fieldValue r name = testWorld.fieldValue r name) ∧
    (∀ r, ((field.Scan ⟨0, ⟨"bin", .BytesKind, .Optional⟩⟩ (.bytes ⟨0, 3⟩)
        testWorld).2.msgs r).Fields = (testWorld.msgs r).Fields) ∧
    (∃ extra, (field.Scan ⟨0, ⟨"bin", .BytesKind, .Optional⟩⟩ (.bytes ⟨0, 3⟩)
        testWorld).2.heap = testWorld.heap ++ extra) ∧
    (field.Scan ⟨0, ⟨"bin", .BytesKind, .Optional⟩⟩ (.bytes ⟨0, 3⟩) testWorld).2.scans
      = testWorld.scans :=
  ⟨by decide, field_Scan_success_writes_one_field ⟨0, ⟨"bin", .BytesKind, .Optional⟩⟩
    (.bytes ⟨0, 3⟩) testWorld (by decide)⟩

/-- C12: a failed consume writes nothing. Whenever `field.Scan` returns an error,
the error is the unsupported kind error or the type mismatch error and every
message is exactly as it was before the call. In particular, when the adapter of
the first column of a row returns an error, `Scan` leaves every message
unchanged. -/
theorem field_Scan_error_writes_nothing (f : field) (src : Raw) (w : World) (e : Error)
    (rows : Rows) (msg : Nat) (w1 : World) (c : String × Raw) (rest : List (String × Raw))
    (fd : FieldDescriptor) (e1 : Error)
    (herr : (f.Scan src w).1 = .error e)
    (hrow : rows.row = c :: rest)
    (hfd : ByName (w1.msgs msg).Fields c.1 = some fd)
    (hfirst : (field.Scan ⟨msg, fd⟩ c.2 w1).1 = .error e1) :
    ((e = .unsupportedType f.desc.Kind ∨ e = .cannotScan src.goType f.desc.Kind) ∧
      (f.Scan src w).2.msgs = w.msgs ∧
      ∀ r name, (f.Scan src w).2.fieldValue r name = w.fieldValue r name) ∧
    ((Scan rows msg w1).1 ≠ .ok ∧ (Scan rows msg w1).2.msgs = w1.msgs ∧
      ∀ r name, (Scan rows msg w1).2.fieldValue r name = w1.fieldValue r name) := by
  have hmsgs : (f.Scan src w).2.msgs = w.msgs :=
    field.Scan_not_ok_msgs f src w (by rw [herr]; simp)
  have hkind : e = .unsupportedType f.desc.Kind ∨ e = .cannotScan src.goType f.desc.Kind := by
    cases hk : f.desc.Kind.carrier with
    | none =>
      rw [field.Scan_unsupported f src w hk] at herr
      simp only [Outcome.error.injEq] at herr
      exact Or.inl herr.symm
    | some c0 =>
      rcases field.Scan_outcome_cases f src w c0 hk with h | h | h <;> rw [h] at herr
      · cases herr
      · cases herr
      · simp only [Outcome.error.injEq] at herr
        exact Or.inr herr.symm
  have hS : (Scan rows msg w1).1 ≠ .ok ∧ (Scan rows msg w1).2.msgs = w1.msgs := by
    rcases Scan_cases rows msg w1 with ⟨e2, _, hs⟩ | ⟨_, _, col, hs⟩ |
      ⟨_, dest, hd, _, ⟨e2, _, hs⟩ | ⟨_, hs⟩⟩
    · rw [hs]; simp
    · rw [hs]; simp
    · rw [hs]; simp
    · rw [hs]
      rw [hrow] at hd ⊢
      obtain ⟨fd1, dtail, hfd1, _, hdest⟩ := Scan.dest_cons_ok msg _ c.1 _ dest hd
      rw [hfd] at hfd1
      simp only [Option.some.injEq] at hfd1
      subst hfd1
      subst hdest
      have hstep : (field.Scan ⟨msg, fd⟩ c.2 ⟨w1.heap, w1.msgs, w1.scans + 1⟩).1 = .error e1 := by
        rw [field.Scan_outcome_indep ⟨msg, fd⟩ c.2 _ w1]; exact hfirst
      have hm := field.Scan_not_ok_msgs ⟨msg, fd⟩ c.2 ⟨w1.heap, w1.msgs, w1.scans + 1⟩
        (by rw [hstep]; simp)
      obtain ⟨col, sv⟩ := c
      simp only [Rows.scanFrom]
      cases hr : field.Scan ⟨msg, fd⟩ sv ⟨w1.heap, w1.msgs, w1.scans + 1⟩ with
      | mk o w2 =>
        rw [hr] at hstep hm
        simp only at hstep hm
        subst hstep
        exact ⟨by simp, hm⟩
  refine ⟨⟨hkind, hmsgs, ?_⟩, hS.1, hS.2, ?_⟩
  · intro r name; simp only [World.fieldValue, hmsgs]
  · intro r name; simp only [World.fieldValue, hS.2]

theorem field_Scan_error_writes_nothing_witness :
    ((field.Scan ⟨0, ⟨"mp", .MessageKind, .Repeated⟩⟩ (.int64 900) testWorld).1
        = .error (.unsupportedType .MessageKind) ∧
      mismatchFirstRows.row = ("text", .int64 900) :: [("number", .int64 123)] ∧
      ByName (testWorld.msgs 0).Fields "text" = some ⟨"text", .StringKind, .Optional⟩ ∧
      (field.Scan ⟨0, ⟨"text", .StringKind, .Optional⟩⟩ (.int64 900) testWorld).1
        = .error (.cannotScan .int64 .StringKind)) ∧
    (field.Scan ⟨0, ⟨"mp", .MessageKind, .Repeated⟩⟩ (.int64 900) testWorld).2.msgs
      = testWorld.msgs ∧
    (Scan mismatchFirstRows 0 testWorld).1 ≠ .ok ∧
    (Scan mismatchFirstRows 0 testWorld).2.msgs = testWorld.msgs := by
  have h := field_Scan_error_writes_nothing ⟨0, ⟨"mp", .MessageKind, .Repeated⟩⟩ (.int64 900)
    testWorld (.unsupportedType .MessageKind) mismatchFirstRows 0 testWorld
    ("text", .int64 900) [("number", .int64 123)] ⟨"text", .StringKind, .Optional⟩
    (.cannotScan .int64 .StringKind) (by decide) rfl (by decide) (by decide)
  exact ⟨⟨by decide, rfl, by decide, by decide⟩, h.1.2.1, h.2.1, h.2.2.1⟩

/-- C13 (the order of the columns decides between a panic and an error): the row
with the columns `nums`, a repeated int32 field carrying an `int64`, and `text`,
a string field carrying an `int64`, has distinct column names. On it `Scan`
panics: the adapter of `nums` hands a scalar value to `Message.Set`. On the
permutation that has `text` first, `Scan` returns the type mismatch error of
`text`. So it returns an error on the permuted row and none on the original. -/
theorem Scan_column_order_decides_panic_or_error :
    repeatedLastRows.row.Perm repeatedFirstRows.row ∧
    (repeatedFirstRows.row.map Prod.fst).Nodup ∧
    (Scan repeatedFirstRows 0 testWorld).1 = .panic (.scalarIntoRepeated "nums") ∧
    (Scan repeatedLastRows 0 testWorld).1
      = .error (.wrap "pbbind Scan" (.scanColumn 0 "text" (.cannotScan .int64 .StringKind))) ∧
    ¬ ((∃ e, (Scan repeatedLastRows 0 testWorld).1 = .error e) ↔
      (∃ e, (Scan repeatedFirstRows 0 testWorld).1 = .error e)) := by
  have h1 : (Scan repeatedFirstRows 0 testWorld).1 = .panic (.scalarIntoRepeated "nums") := by
    decide
  have h2 : (Scan repeatedLastRows 0 testWorld).1
      = .error (.wrap "pbbind Scan" (.scanColumn 0 "text" (.cannotScan .int64 .StringKind))) := by
    decide
  refine ⟨by decide, by decide, h1, h2, ?_⟩
  intro h
  obtain ⟨e, he⟩ := h.1 ⟨_, h2⟩
  rw [h1] at he
  cases he

/-- C14 (the code does not look at the cardinality): on the repeated int32 field
`nums`, `field.Scan` does not return the unsupported error. With a string it
returns the type mismatch error for the element kind; with an `int64`, the
carrier of the element kind, the assertion succeeds and the scalar value is handed
to `Message.Set`, which panics. Only a field whose kind is not scalar, as the map
field `mp`, gets the unsupported error. -/
theorem field_Scan_repeated_scalar_not_unsupported :
    (field.Scan ⟨0, ⟨"nums", .Int32Kind, .Repeated⟩⟩ (.string "x") testWorld).1
      = .error (.cannotScan .string .Int32Kind) ∧
    (field.Scan ⟨0, ⟨"nums", .Int32Kind, .Repeated⟩⟩ (.int64 900) testWorld).1
      = .panic (.scalarIntoRepeated "nums") ∧
    (field.Scan ⟨0, ⟨"nums", .Int32Kind, .Repeated⟩⟩ (.int64 900) testWorld).1
      ≠ .error (.unsupportedType .Int32Kind) ∧
    (field.Scan ⟨0, ⟨"mp", .MessageKind, .Repeated⟩⟩ (.int64 900) testWorld).1
      = .error (.unsupportedType .MessageKind) := by
  decide

/-- C15: partial writes are kept. When the column names are retrieved, every name
resolves, the engine reports no row error, the adapters of the columns `pre`
return nil and the adapter of the next column `c` returns the error `e`, then
`Scan` returns an error (`e` under the column error of the engine, under "pbbind
Scan") and the target message is the original one with the columns of `pre`
written: a field that no column of `pre` names has its original value, also when
`c` or a later column names it, and a field that a column of `pre` names holds the
converted value of the last such column. -/
theorem Scan_partial_writes_kept (rows : Rows) (msg : Nat) (w : World)
    (pre : List (String × Raw)) (c : String × Raw) (post : List (String × Raw))
    (fd : FieldDescriptor) (e : Error)
    (hcols : rows.columnsErr = none) (hscan : rows.scanErr = none)
    (hres : ∀ p ∈ rows.row, ∃ fp, ByName (w.msgs msg).Fields p.1 = some fp)
    (hrow : rows.row = pre ++ c :: post)
    (hpre : ∀ p ∈ pre, ∀ fp, ByName (w.msgs msg).Fields p.1 = some fp →
      (field.Scan ⟨msg, fp⟩ p.2 w).1 = .ok)
    (hfd : ByName (w.msgs msg).Fields c.1 = some fd)
    (herr : (field.Scan ⟨msg, fd⟩ c.2 w).1 = .error e) :
    (Scan rows msg w).1 = .error (.wrap "pbbind Scan" (.scanColumn pre.length c.1 e)) ∧
    (∀ name, name ∉ pre.map Prod.fst →
      (Scan rows msg w).2.fieldValue msg name = w.fieldValue msg name) ∧
    (∀ p1 q p2, pre = p1 ++ q :: p2 → q.1 ∉ p2.map Prod.fst →
      ∃ fq v, ByName (w.msgs msg).Fields q.1 = some fq ∧ fq.Kind.convert q.2 = some v ∧
        (Scan rows msg w).2.fieldValue msg q.1 = some v) := by
  rcases Scan_cases rows msg w with ⟨e2, hc2, _⟩ | ⟨_, ⟨p, hp, hn⟩, _⟩ |
    ⟨_, dest, hd, _, ⟨e2, hs2, _⟩ | ⟨_, hs⟩⟩
  · rw [hcols] at hc2; cases hc2
  · obtain ⟨fp, hfp⟩ := hres p hp
    rw [hn] at hfp; cases hfp
  · rw [hscan] at hs2; cases hs2
  · rw [hrow] at hd hs
    have hpre0 : ∀ p ∈ pre, ∀ fp, ByName (w.msgs msg).Fields p.1 = some fp →
        (field.Scan ⟨msg, fp⟩ p.2 ⟨w.heap, w.msgs, w.scans + 1⟩).1 = .ok := by
      intro p hp fp hfp
      rw [field.Scan_outcome_indep ⟨msg, fp⟩ p.2 _ w]
      exact hpre p hp fp hfp
    obtain ⟨dpre, drest, _, hdpre, hdrest, _, hrun⟩ :=
      Rows.scanFrom_append msg (w.msgs msg).Fields pre (c :: post) dest 0
        ⟨w.heap, w.msgs, w.scans + 1⟩ hd hpre0
    obtain ⟨_, hlast⟩ := Rows.scanFrom_last msg (w.msgs msg).Fields pre dpre 0
      ⟨w.heap, w.msgs, w.scans + 1⟩ hdpre hpre0
    have hframe := fun name (hn : name ∉ pre.map Prod.fst) =>
      Rows.scanFrom_frame msg (w.msgs msg).Fields msg name pre dpre 0
        ⟨w.heap, w.msgs, w.scans + 1⟩ hdpre (Or.inr hn)
    obtain ⟨fd1, dtail, hfd1, _, hdest⟩ := Scan.dest_cons_ok msg _ c.1 _ drest hdrest
    rw [hfd] at hfd1
    simp only [Option.some.injEq] at hfd1
    subst hfd1
    subst hdest
    -- the state after the columns before `c`
    generalize (Rows.scanFrom 0 pre dpre ⟨w.heap, w.msgs, w.scans + 1⟩).2 = wp at hrun hlast hframe
    have hstep : (field.Scan ⟨msg, fd⟩ c.2 wp).1 = .error e := by
      rw [field.Scan_outcome_indep ⟨msg, fd⟩ c.2 wp w]; exact herr
    have hm := field.Scan_not_ok_msgs ⟨msg, fd⟩ c.2 wp (by rw [hstep]; simp)
    obtain ⟨col, sv⟩ := c
    rw [hs, hrun]
    simp only [Rows.scanFrom]
    cases hr : field.Scan ⟨msg, fd⟩ sv wp with
    | mk o w2 =>
      rw [hr] at hstep hm
      simp only at hstep hm
      subst hstep
      refine ⟨by simp, ?_, ?_⟩
      · intro name hn
        have := hframe name hn
        simp only [World.fieldValue] at this ⊢
        rw [hm]; exact this
      · intro p1 q p2 hsplit hq
        obtain ⟨fq, hfq⟩ := hres q (by rw [hrow, hsplit]; simp)
        have hqok := hpre q (by rw [hsplit]; simp) fq hfq
        obtain ⟨hcar, hcard⟩ := field.Scan_ok_inv ⟨msg, fq⟩ q.2 w hqok
        obtain ⟨v, hv, _⟩ := field.Scan_singular ⟨msg, fq⟩ q.2 w hcar hcard
        refine ⟨fq, v, hfq, hv, ?_⟩
        have := hlast p1 q p2 hsplit hq fq hfq
        simp only [World.fieldValue] at this ⊢
        rw [hm, this]; exact hv

theorem Scan_partial_writes_kept_witness :
    (mismatchRows.columnsErr = none ∧ mismatchRows.scanErr = none ∧
      mismatchRows.row = [("number", .int64 123)] ++ ("text", .int64 900) ::
        [("large", .int64 20000000)]) ∧
    (Scan mismatchRows 0 testWorld).1
      = .error (.wrap "pbbind Scan" (.scanColumn 1 "text" (.cannotScan .int64 .StringKind))) ∧
    (Scan mismatchRows 0 testWorld).2.fieldValue 0 "number" = some (.ValueOfInt32 123) ∧
    (Scan mismatchRows 0 testWorld).2.fieldValue 0 "text" = testWorld.fieldValue 0 "text" ∧
    (Scan mismatchRows 0 testWorld).2.fieldValue 0 "large" = testWorld.fieldValue 0 "large" ∧
    (Scan mismatchRows 0 testWorld).2.fieldValue 0 "number"
      ≠ testWorld.fieldValue 0 "number" := by
  have hnum : ByName (testWorld.msgs 0).Fields "number"
      = some ⟨"number", .Int32Kind, .Optional⟩ := by decide
  obtain ⟨h1, h2, h3⟩ := Scan_partial_writes_kept mismatchRows 0 testWorld
    [("number", .int64 123)] ("text", .int64 900) [("large", .int64 20000000)]
    ⟨"text", .StringKind, .Optional⟩ (.cannotScan .int64 .StringKind) rfl rfl
    (by
      intro p hp
      simp only [mismatchRows, List.mem_cons, List.mem_singleton, List.not_mem_nil,
        or_false] at hp
      rcases hp with rfl | rfl | rfl
      · exact ⟨⟨"number", .Int32Kind, .Optional⟩, by decide⟩
      · exact ⟨⟨"text", .StringKind, .Optional⟩, by decide⟩
      · exact ⟨⟨"large", .Int64Kind, .Optional⟩, by decide⟩)
    rfl
    (by
      intro p hp fp hfp
      simp only [List.mem_singleton] at hp
      subst hp
      rw [hnum] at hfp
      simp only [Option.some.injEq] at hfp
      subst hfp
      decide)
    (by decide) (by decide)
  obtain ⟨fq, v, hfq, hv, hval⟩ := h3 [] ("number", .int64 123) [] rfl (by simp)
  rw [hnum] at hfq
  simp only [Option.some.injEq] at hfq
  subst hfq
  have hv1 : v = .ValueOfInt32 123 := by
    have h0 : Kind.convert .Int32Kind (.int64 123) = some (.ValueOfInt32 123) := by decide
    rw [h0] at hv
    simp only [Option.some.injEq] at hv
    exact hv.symm
  subst hv1
  refine ⟨⟨rfl, rfl, rfl⟩, h1, hval, h2 "text" (by decide), h2 "large" (by decide), ?_⟩
  rw [hval]
  decide

/-- C16: when the column names are retrieved and every one resolves, `Scan` hands
to `rows.Scan` a destination list that has as many adapters as the row has
columns, and at every index the adapter is bound to the target message and to the
field descriptor that `ByName` returns for the column name at that index, whose
name is that column name. -/
theorem Scan_dest_dense_and_aligned (rows : Rows) (msg : Nat) (w : World)
    (hcols : rows.columnsErr = none)
    (hres : ∀ c ∈ rows.row, ∃ fd, ByName (w.msgs msg).Fields c.1 = some fd) :
    ∃ dest, Scan.dest msg (w.msgs msg).Fields (rows.row.map Prod.fst) = .ok dest ∧
      (Scan rows msg w =
        match rows.Scan dest w with
        | (.ok, w1) => (.ok, w1)
        | (.error err, w1) => (.error (.wrap "pbbind Scan" err), w1)
        | (.panic p, w1) => (.panic p, w1)) ∧
      dest.length = rows.row.length ∧
      ∀ (i : Nat) (c : String × Raw), rows.row[i]? = some c →
        ∃ fd, dest[i]? = some ⟨msg, fd⟩ ∧ ByName (w.msgs msg).Fields c.1 = some fd ∧
          fd.Name = c.1 := by
  have hres1 : ∀ c ∈ rows.row.map Prod.fst, ∃ fd, ByName (w.msgs msg).Fields c = some fd := by
    intro c hcm
    obtain ⟨p, hp, rfl⟩ := List.mem_map.1 hcm
    exact hres p hp
  obtain ⟨dest, hd⟩ := Scan.dest_ok msg (w.msgs msg).Fields _ hres1
  refine ⟨dest, hd, Scan_dest_ok rows msg w dest hcols hd, ?_, ?_⟩
  · rw [Scan.dest_length msg _ _ dest hd, List.length_map]
  · intro i c hi
    have hcol : (rows.row.map Prod.fst)[i]? = some c.1 := by
      rw [List.getElem?_map, hi]; rfl
    obtain ⟨fd, hfd, hdi⟩ := Scan.dest_get msg _ _ dest hd i c.1 hcol
    exact ⟨fd, hdi, hfd, ByName_name _ _ _ hfd⟩

theorem Scan_dest_dense_and_aligned_witness :
    (helloRows.columnsErr = none ∧
      ∀ c ∈ helloRows.row, ∃ fd, ByName (testWorld.msgs 0).Fields c.1 = some fd) ∧
    ∃ dest, Scan.dest 0 (testWorld.msgs 0).Fields (helloRows.row.map Prod.fst) = .ok dest ∧
      (Scan helloRows 0 testWorld =
        match helloRows.Scan dest testWorld with
        | (.ok, w1) => (.ok, w1)
        | (.error err, w1) => (.error (.wrap "pbbind Scan" err), w1)
        | (.panic p, w1) => (.panic p, w1)) ∧
      dest.length = helloRows.row.length ∧
      ∀ (i : Nat) (c : String × Raw), helloRows.row[i]? = some c →
        ∃ fd, dest[i]? = some ⟨0, fd⟩ ∧ ByName (testWorld.msgs 0).Fields c.1 = some fd ∧
          fd.Name = c.1 := by
  have hres : ∀ c ∈ helloRows.row, ∃ fd, ByName (testWorld.msgs 0).Fields c.1 = some fd := by
    intro c hc
    simp only [helloRows, List.mem_cons, List.mem_singleton, List.not_mem_nil, or_false] at hc
    rcases hc with rfl | rfl | rfl
    · exact ⟨⟨"toggle", .BoolKind, .Optional⟩, by decide⟩
    · exact ⟨⟨"number", .Int32Kind, .Optional⟩, by decide⟩
    · exact ⟨⟨"text", .StringKind, .Optional⟩, by decide⟩
  exact ⟨⟨rfl, hres⟩, Scan_dest_dense_and_aligned helloRows 0 testWorld rfl hres⟩

/-- C17: `Scan` never touches a field that no column names. For every row and
every initial state, whether `Scan` returns nil, returns an error or panics, a
field of the target message whose name is not a column name of the row has the
value it had before the call; so has every field of every other message. -/
theorem Scan_leaves_unnamed_fields (rows : Rows) (msg : Nat) (w : World) (name : String)
    (h : name ∉ rows.row.map Prod.fst) :
    (Scan rows msg w).2.fieldValue msg name = w.fieldValue msg name ∧
    ∀ r other, r ≠ msg → (Scan rows msg w).2.fieldValue r other = w.fieldValue r other :=
  ⟨Scan_fields_frame rows msg w msg name (Or.inr h),
    fun r other hr => Scan_fields_frame rows msg w r other (Or.inl hr)⟩

theorem Scan_leaves_unnamed_fields_witness :
    "large" ∉ mismatchRowsNoLarge.row.map Prod.fst ∧
    ((Scan mismatchRowsNoLarge 0 testWorld).2.fieldValue 0 "large"
        = testWorld.fieldValue 0 "large" ∧
      ∀ r other, r ≠ 0 →
        (Scan mismatchRowsNoLarge 0 testWorld).2.fieldValue r other
          = testWorld.fieldValue r other) :=
  ⟨by decide, Scan_leaves_unnamed_fields mismatchRowsNoLarge 0 testWorld "large" (by decide)⟩

/-- C18: a nil raw value is never bindable. On a field of any of the fifteen
scalar kinds, bytes included, `field.Scan` on nil returns the type mismatch error
(naming the nil type and the kind) and changes no message. So `Scan` does not
return nil on a row that has a NULL in some column; it returns an error when no
column names a repeated field. -/
theorem field_Scan_null_never_binds (f : field) (w : World) (rows : Rows) (msg : Nat)
    (w1 : World)
    (hk : f.desc.Kind ∈ Kind.scalars)
    (hnull : ∃ c ∈ rows.row, c.2 = .null) :
    ((f.Scan .null w).1 = .error (.cannotScan .nil f.desc.Kind) ∧
      (f.Scan .null w).2.msgs = w.msgs) ∧
    (Scan rows msg w1).1 ≠ .ok ∧
    ((∀ c ∈ rows.row, ∀ fd, ByName (w1.msgs msg).Fields c.1 = some fd →
        fd.Cardinality ≠ .Repeated) →
      ∃ err, (Scan rows msg w1).1 = .error err) := by
  have hnot : (Scan rows msg w1).1 ≠ .ok := by
    intro hok
    obtain ⟨_, _, hall⟩ := (Scan_ok_iff rows msg w1).1 hok
    obtain ⟨c, hc, hcn⟩ := hnull
    obtain ⟨fd, _, hfd⟩ := hall c hc
    have := hfd w1
    rw [hcn] at this
    exact field.Scan_null_not_ok ⟨msg, fd⟩ w1 this
  refine ⟨?_, hnot, ?_⟩
  · cases hcar : f.desc.Kind.carrier with
    | none => exact absurd hk ((Kind.carrier_eq_none_iff _).1 hcar)
    | some c =>
      rw [field.Scan_null f w c hcar]
      exact ⟨rfl, field.scratch_msgs _ _ _⟩
  · intro hsing
    cases ho : (Scan rows msg w1).1 with
    | ok => exact absurd ho hnot
    | error err => exact ⟨err, rfl⟩
    | panic p => exact absurd ho (Scan_no_panic rows msg w1 p hsing)

theorem field_Scan_null_never_binds_witness :
    (Kind.BytesKind ∈ Kind.scalars ∧ ∃ c ∈ nullRows.row, c.2 = .null) ∧
    ((field.Scan ⟨0, ⟨"bin", .BytesKind, .Optional⟩⟩ .null testWorld).1
        = .error (.cannotScan .nil .BytesKind) ∧
      (field.Scan ⟨0, ⟨"bin", .BytesKind, .Optional⟩⟩ .null testWorld).2.msgs
        = testWorld.msgs) ∧
    (Scan nullRows 0 testWorld).1 ≠ .ok ∧
    ((∀ c ∈ nullRows.row, ∀ fd, ByName (testWorld.msgs 0).Fields c.1 = some fd →
        fd.Cardinality ≠ .Repeated) →
      ∃ err, (Scan nullRows 0 testWorld).1 = .error err) :=
  ⟨⟨by decide, ("bin", .null), by decide, rfl⟩,
    field_Scan_null_never_binds ⟨0, ⟨"bin", .BytesKind, .Optional⟩⟩ testWorld nullRows 0
      testWorld (by decide) ⟨("bin", .null), by decide, rfl⟩⟩

/-- C19: duplicate column names are accepted and the last one wins. For every row
the engine supplies without error, all of whose columns name singular fields and
carry values of the expected carrier type, whether or not a name occurs more than
once, `Scan` returns nil, the destination list has one adapter per column, and
every named field ends up with the converted value of the last column of that
name. -/
theorem Scan_duplicate_columns_last_wins (rows : Rows) (msg : Nat) (w : World)
    (hcols : rows.columnsErr = none) (hscan : rows.scanErr = none)
    (hrow : ∀ c ∈ rows.row, ∃ fd, ByName (w.msgs msg).Fields c.1 = some fd ∧
      fd.Cardinality ≠ .Repeated ∧ fd.Kind.carrier = some c.2.goType) :
    (Scan rows msg w).1 = .ok ∧
    (∃ dest, Scan.dest msg (w.msgs msg).Fields (rows.row.map Prod.fst) = .ok dest ∧
      dest.length = rows.row.length) ∧
    ∀ pre c post, rows.row = pre ++ c :: post → c.1 ∉ post.map Prod.fst →
      ∃ fd v, ByName (w.msgs msg).Fields c.1 = some fd ∧ fd.Kind.convert c.2 = some v ∧
        (Scan rows msg w).2.fieldValue msg c.1 = some v := by
  have hstep : ∀ c ∈ rows.row, ∀ fd, ByName (w.msgs msg).Fields c.1 = some fd →
      ∀ w2, (field.Scan ⟨msg, fd⟩ c.2 w2).1 = .ok := by
    intro c hc fd hfd w2
    obtain ⟨fd1, hfd1, hcard, hcar⟩ := hrow c hc
    rw [hfd] at hfd1
    simp only [Option.some.injEq] at hfd1
    subst hfd1
    exact (field.Scan_singular_value ⟨msg, fd⟩ c.2 w2 hcar hcard).1
  rcases Scan_cases rows msg w with ⟨e2, hc2, _⟩ | ⟨_, ⟨p, hp, hn⟩, _⟩ |
    ⟨_, dest, hd, hlen, ⟨e2, hs2, _⟩ | ⟨_, hs⟩⟩
  · rw [hcols] at hc2; cases hc2
  · obtain ⟨fp, hfp, _⟩ := hrow p hp
    rw [hn] at hfp; cases hfp
  · rw [hscan] at hs2; cases hs2
  · obtain ⟨hok, hlast⟩ := Rows.scanFrom_last msg (w.msgs msg).Fields rows.row dest 0
      ⟨w.heap, w.msgs, w.scans + 1⟩ hd (fun c hc fd hfd => hstep c hc fd hfd _)
    rw [hs]
    cases hr : Rows.scanFrom 0 rows.row dest ⟨w.heap, w.msgs, w.scans + 1⟩ with
    | mk o w2 =>
      rw [hr] at hok hlast
      simp only at hok hlast
      subst hok
      refine ⟨rfl, ⟨dest, hd, hlen⟩, ?_⟩
      intro pre c post hsplit hc
      obtain ⟨fd, hfd, hcard, hcar⟩ := hrow c (by rw [hsplit]; simp)
      obtain ⟨v, hv, _⟩ := field.Scan_singular ⟨msg, fd⟩ c.2 w hcar hcard
      refine ⟨fd, v, hfd, hv, ?_⟩
      have := hlast pre c post hsplit hc fd hfd
      simp only at this
      rw [this]; exact hv

theorem Scan_duplicate_columns_last_wins_witness :
    (duplicateRows.columnsErr = none ∧ duplicateRows.scanErr = none ∧
      ¬ (duplicateRows.row.map Prod.fst).Nodup) ∧
    (Scan duplicateRows 0 testWorld).1 = .ok ∧
    (∃ dest, Scan.dest 0 (testWorld.msgs 0).Fields (duplicateRows.row.map Prod.fst) = .ok dest ∧
      dest.length = 3) ∧
    (Scan duplicateRows 0 testWorld).2.fieldValue 0 "number" = some (.ValueOfInt32 2) := by
  have hnum : ByName (testWorld.msgs 0).Fields "number"
      = some ⟨"number", .Int32Kind, .Optional⟩ := by decide
  obtain ⟨h1, h2, h3⟩ := Scan_duplicate_columns_last_wins duplicateRows 0 testWorld rfl rfl
    (by
      intro c hc
      simp only [duplicateRows, List.mem_cons, List.mem_singleton, List.not_mem_nil,
        or_false] at hc
      rcases hc with rfl | rfl | rfl
      · exact ⟨⟨"number", .Int32Kind, .Optional⟩, by decide, by decide, rfl⟩
      · exact ⟨⟨"text", .StringKind, .Optional⟩, by decide, by decide, rfl⟩
      · exact ⟨⟨"number", .Int32Kind, .Optional⟩, by decide, by decide, rfl⟩)
  obtain ⟨fd, v, hfd, hv, hval⟩ := h3 [("number", .int64 1), ("text", .string "a")]
    ("number", .int64 2) [] rfl (by simp)
  rw [hnum] at hfd
  simp only [Option.some.injEq] at hfd
  subst hfd
  have hv1 : v = .ValueOfInt32 2 := by
    have h0 : Kind.convert .Int32Kind (.int64 2) = some (.ValueOfInt32 2) := by decide
    rw [h0] at hv
    simp only [Option.some.injEq] at hv
    exact hv.symm
  subst hv1
  exact ⟨⟨rfl, rfl, by decide⟩, h1, h2, hval⟩

end pbind
